import Mathlib

/-!
Shallow embedding of the video-caching optimisation scripts of this
repository (`main.py`, `main_2_otherOperators.py`, `ushtrime.py`).

Modelling conventions:
* Python `int` is `Int`; Python floor division `//` is `Int.fdiv`.
* Python `dict` is an insertion-ordered association list with unique keys.
* Python `set` of video ids is `Finset Nat`.
* Python list indexing `xs[i]` that can raise `IndexError` is modelled
  with `Option`/`Except`; indexing that is in range by construction is
  modelled with `List.getD`.
* Python float division in sort keys and placement scores is modelled
  exactly over `ℚ`.
* Randomness (`random.randint`, `random.choice`, `random.sample`) is
  modelled by explicit choice arguments, universally quantified.
-/

namespace VideoCache

attribute [local semireducible] Rat.mul Rat.inv Rat.add Rat.sub

/-- A cache server, `{'videos': set(), 'remaining_capacity': X}`:
the set of stored video ids plus the remaining-capacity bookkeeping field. -/
structure Cache where
  videos : Finset Nat
  remaining : Int
deriving DecidableEq

/-- An endpoint, `{'data_center_latency': ..., 'cache_latencies': {...}}`;
the latency dict is an insertion-ordered association list. -/
structure Endpoint where
  dcLatency : Int
  cacheLatencies : List (Nat × Int)
deriving DecidableEq

/-- A request tuple `(video_id, endpoint_id, num_requests)`. -/
abbrev Request := Nat × Nat × Int

/-- Default cache used by `List.getD`; out-of-range positions hold no videos. -/
def dCache : Cache := ⟨∅, 0⟩

/-- Default endpoint used by `List.getD`. -/
def dEndpoint : Endpoint := ⟨0, []⟩

/-- Videos stored at position `i` of a solution. -/
def videosAt (sol : List Cache) (i : Nat) : Finset Nat := (sol.getD i dCache).videos

/-- Remaining capacity recorded at position `i` of a solution. -/
def remAt (sol : List Cache) (i : Nat) : Int := (sol.getD i dCache).remaining

section ListHelpers

variable {α : Type}

theorem getD_set_self (l : List α) (i : Nat) (a d : α) (h : i < l.length) :
    (l.set i a).getD i d = a := by
  induction l generalizing i with
  | nil => simp at h
  | cons x xs ih =>
    cases i with
    | zero => simp [List.set, List.getD]
    | succ n =>
      simp only [List.set, List.getD_cons_succ]
      exact ih n (by simpa using h)

theorem getD_set_ne (l : List α) (i j : Nat) (a d : α) (h : i ≠ j) :
    (l.set i a).getD j d = l.getD j d := by
  induction l generalizing i j with
  | nil => simp [List.set]
  | cons x xs ih =>
    cases i with
    | zero =>
      cases j with
      | zero => exact absurd rfl h
      | succ m => simp [List.set]
    | succ n =>
      cases j with
      | zero => simp [List.set]
      | succ m =>
        simp only [List.set, List.getD_cons_succ]
        exact ih n m (fun hnm => h (by simp [hnm]))

theorem set_oob (l : List α) (i : Nat) (a : α) (h : l.length ≤ i) :
    l.set i a = l := by
  induction l generalizing i with
  | nil => simp
  | cons x xs ih =>
    cases i with
    | zero => simp at h
    | succ n => simpa using ih n (by simpa using h)

theorem getD_oob (l : List α) (i : Nat) (d : α) (h : l.length ≤ i) :
    l.getD i d = d := by
  induction l generalizing i with
  | nil => simp [List.getD]
  | cons x xs ih =>
    cases i with
    | zero => simp at h
    | succ n =>
      simp only [List.getD_cons_succ]
      exact ih n (by simpa using h)

theorem getD_mem (l : List α) (i : Nat) (d : α) (h : i < l.length) :
    l.getD i d ∈ l := by
  induction l generalizing i with
  | nil => simp at h
  | cons x xs ih =>
    cases i with
    | zero => simp [List.getD]
    | succ n =>
      simp only [List.getD_cons_succ]
      exact List.mem_cons_of_mem _ (ih n (by simpa using h))

theorem mem_of_mem_set (l : List α) (i : Nat) (a b : α) (h : b ∈ l.set i a) :
    b = a ∨ b ∈ l := by
  induction l generalizing i with
  | nil => simp [List.set] at h
  | cons x xs ih =>
    cases i with
    | zero =>
      rcases List.mem_cons.mp h with h1 | h1
      · exact Or.inl h1
      · exact Or.inr (List.mem_cons_of_mem _ h1)
    | succ n =>
      rcases List.mem_cons.mp h with h1 | h1
      · exact Or.inr (by simp [h1])
      · rcases ih n h1 with h2 | h2
        · exact Or.inl h2
        · exact Or.inr (List.mem_cons_of_mem _ h2)

end ListHelpers

section MinList

/-- Running minimum of a list of latencies seeded with a start value;
models loops of the form `best = min(best, lat)`. -/
def minList (start : Int) (l : List Int) : Int := l.foldl min start

theorem minList_nil (start : Int) : minList start [] = start := rfl

theorem minList_cons (start x : Int) (l : List Int) :
    minList start (x :: l) = minList (min start x) l := rfl

theorem minList_le_start (start : Int) (l : List Int) : minList start l ≤ start := by
  induction l generalizing start with
  | nil => simp [minList]
  | cons x xs ih =>
    calc minList start (x :: xs) = minList (min start x) xs := rfl
    _ ≤ min start x := ih _
    _ ≤ start := min_le_left _ _

theorem minList_le_mem (start : Int) (l : List Int) {x : Int} (h : x ∈ l) :
    minList start l ≤ x := by
  induction l generalizing start with
  | nil => simp at h
  | cons y ys ih =>
    rcases List.mem_cons.mp h with h1 | h1
    · subst h1
      calc minList start (x :: ys) = minList (min start x) ys := rfl
      _ ≤ min start x := minList_le_start _ _
      _ ≤ x := min_le_right _ _
    · exact ih _ h1

theorem minList_eq_start_or_mem (start : Int) (l : List Int) :
    minList start l = start ∨ minList start l ∈ l := by
  induction l generalizing start with
  | nil => exact Or.inl rfl
  | cons x xs ih =>
    rcases ih (min start x) with h | h
    · rcases min_cases start x with ⟨he, _⟩ | ⟨he, _⟩
      · exact Or.inl (by rw [minList_cons, h, he])
      · exact Or.inr (by rw [minList_cons, h, he]; exact List.mem_cons_self _ _)
    · exact Or.inr (List.mem_cons_of_mem _ (by rw [minList_cons]; exact h))

theorem minList_le_minList (start : Int) (l l' : List Int)
    (h : ∀ x ∈ l', minList start l ≤ x) :
    minList start l ≤ minList start l' := by
  rcases minList_eq_start_or_mem start l' with h1 | h1
  · rw [h1]; exact minList_le_start _ _
  · exact h _ h1

theorem minList_eq_of_mem_iff (start : Int) (l l' : List Int)
    (h : ∀ x, x ∈ l ↔ x ∈ l') :
    minList start l = minList start l' := by
  apply le_antisymm
  · exact minList_le_minList _ _ _ (fun x hx => minList_le_mem _ _ ((h x).mpr hx))
  · exact minList_le_minList _ _ _ (fun x hx => minList_le_mem _ _ ((h x).mp hx))

end MinList

section Dict

/-- Lookup in an association list, models Python dict access and
`cache_id in endpoint['cache_latencies']`. -/
def dictLookup (c : Nat) : List (Nat × Int) → Option Int
  | [] => none
  | p :: rest => if p.1 = c then some p.2 else dictLookup c rest

theorem dictLookup_mem {c : Nat} {l : List (Nat × Int)} {x : Int}
    (h : dictLookup c l = some x) : (c, x) ∈ l := by
  induction l with
  | nil => simp [dictLookup] at h
  | cons p rest ih =>
    by_cases hp : p.1 = c
    · simp only [dictLookup, hp, if_true, Option.some.injEq] at h
      subst h
      have : p = (c, p.2) := by
        cases p with
        | mk a b => simp only at hp; simp [hp]
      rw [← this]
      exact List.mem_cons_self p rest
    · simp only [dictLookup, hp, if_false] at h
      exact List.mem_cons_of_mem _ (ih h)

theorem mem_dictLookup {c : Nat} {l : List (Nat × Int)} {x : Int}
    (hnd : (l.map Prod.fst).Nodup) (h : (c, x) ∈ l) : dictLookup c l = some x := by
  induction l with
  | nil => simp at h
  | cons p rest ih =>
    rcases List.mem_cons.mp h with h1 | h1
    · subst h1
      simp [dictLookup]
    · have hp : p.1 ≠ c := by
        intro hc
        have hmem : c ∈ rest.map Prod.fst := List.mem_map.mpr ⟨(c, x), h1, rfl⟩
        have hnd' := (List.nodup_cons.mp hnd).1
        exact hnd' (by rw [hc]; exact hmem)
      simp only [dictLookup, hp, if_false]
      exact ih (List.nodup_cons.mp hnd).2 h1

end Dict

section SortBy

variable {α : Type}

/-- Stable insertion used to model Python's stable `sorted`:
`later y x = true` means `y` must come strictly after `x`, so `x` is
inserted before the first such `y` and after every tie. -/
def insertBy (later : α → α → Bool) (x : α) : List α → List α
  | [] => [x]
  | y :: ys => if later y x then x :: y :: ys else y :: insertBy later x ys

/-- Stable sort modelling Python's `sorted(...)` (with `key=...`,
optionally `reverse=True`, encoded in `later`). -/
def sortBy (later : α → α → Bool) (l : List α) : List α :=
  l.foldl (fun acc x => insertBy later x acc) []

theorem mem_insertBy (later : α → α → Bool) (x : α) (l : List α) (z : α) :
    z ∈ insertBy later x l ↔ z = x ∨ z ∈ l := by
  induction l with
  | nil => simp [insertBy]
  | cons y ys ih =>
    by_cases h : later y x
    · simp [insertBy, h]
    · simp only [insertBy, if_neg h, List.mem_cons, ih]
      tauto

theorem mem_sortBy (later : α → α → Bool) (l : List α) (z : α) :
    z ∈ sortBy later l ↔ z ∈ l := by
  suffices h : ∀ acc, z ∈ l.foldl (fun acc x => insertBy later x acc) acc ↔ z ∈ l ∨ z ∈ acc by
    have := h []
    simpa [sortBy] using this
  induction l with
  | nil => intro acc; simp
  | cons y ys ih =>
    intro acc
    simp only [List.foldl_cons, ih, mem_insertBy, List.mem_cons]
    tauto

end SortBy

/-! ## Scorers

Three implementations of `calculate_score`:
* `calculate_score_main` from `main.py` (builds a video-to-cache map and
  checks `cache_id in endpoint['cache_latencies']`; never indexes out of
  range except through `endpoints[endpoint_id]`);
* `calculate_score_main2` from `main_2_otherOperators.py` (iterates the
  latency dict and indexes `cache_servers[cache_id]`);
* `calculate_score_ushtrime` from `ushtrime.py` (same shape as main_2,
  with an explicit `max(LD - min_latency, 0)` clamp).
-/

/-- Inner loop of `calculate_score` in `main.py`: start from the
datacenter latency and take the minimum over the caches that store the
video and appear in the endpoint's latency dict.  The video-to-cache map
of the source is realised by scanning all cache positions. -/
def best_latency_main (ep : Endpoint) (cache_servers : List Cache) (vid : Nat) : Int :=
  (List.range cache_servers.length).foldl
    (fun best cid =>
      if vid ∈ videosAt cache_servers cid then
        match dictLookup cid ep.cacheLatencies with
        | some lat => min best lat
        | none => best
      else best)
    ep.dcLatency

/-- Score of `main.py`: `(total_saved_time * 1000) // total_requests if
total_requests > 0 else 0`.  `none` models the `IndexError` on
`endpoints[endpoint_id]`. -/
def calculate_score_main (requests : List Request) (endpoints : List Endpoint)
    (cache_servers : List Cache) : Option Int :=
  let totalRequests : Int := (requests.map (fun r => r.2.2)).sum
  (requests.foldlM
    (fun (acc : Int) r =>
      (endpoints[r.2.1]?).map
        (fun ep => acc + (ep.dcLatency - best_latency_main ep cache_servers r.1) * r.2.2))
    (0 : Int)).map
    (fun totalSaved =>
      if 0 < totalRequests then Int.fdiv (totalSaved * 1000) totalRequests else 0)

/-- Loop body of `calculate_score` in `main_2_otherOperators.py` for one
request: look up the endpoint, fold the latency dict (indexing
`cache_servers[cache_id]`), and extend the running
`(total_saved_time, total_requests)` pair. -/
def score2Step (endpoints : List Endpoint) (cache_servers : List Cache)
    (acc : Int × Int) (r : Request) : Option (Int × Int) := do
  let ep ← endpoints[r.2.1]?
  let best ← ep.cacheLatencies.foldlM
    (fun (best : Int) p =>
      (cache_servers[p.1]?).map
        (fun c => if r.1 ∈ c.videos then min best p.2 else best))
    ep.dcLatency
  pure (acc.1 + (ep.dcLatency - best) * r.2.2, acc.2 + r.2.2)

/-- Score of `main_2_otherOperators.py`: accumulates
`(total_saved_time, total_requests)` over the requests, then `0` if
`total_requests == 0` else floor division. -/
def calculate_score_main2 (requests : List Request) (endpoints : List Endpoint)
    (cache_servers : List Cache) : Option Int :=
  ((requests.foldlM (score2Step endpoints cache_servers)
    ((0 : Int), (0 : Int))) : Option (Int × Int)).map
    (fun acc => if acc.2 = 0 then 0 else Int.fdiv (acc.1 * 1000) acc.2)

/-- Loop body of `calculate_score` in `ushtrime.py` for one request:
written with `if Lc < min_latency` and `max(LD - min_latency, 0)`. -/
def ushStep (cache_servers : List Cache) (endpoints : List Endpoint)
    (acc : Int) (r : Request) : Option Int := do
  let ep ← endpoints[r.2.1]?
  let minLat ← ep.cacheLatencies.foldlM
    (fun (m : Int) p =>
      (cache_servers[p.1]?).map
        (fun c => if r.1 ∈ c.videos then (if p.2 < m then p.2 else m) else m))
    ep.dcLatency
  pure (acc + max (ep.dcLatency - minLat) 0 * r.2.2)

/-- Score of `ushtrime.py`: same traversal as main_2; the argument order
`(cache_servers, endpoints, requests)` follows the source. -/
def calculate_score_ushtrime (cache_servers : List Cache) (endpoints : List Endpoint)
    (requests : List Request) : Option Int :=
  let totalRequests : Int := (requests.map (fun r => r.2.2)).sum
  ((requests.foldlM (ushStep cache_servers endpoints) (0 : Int)) : Option Int).map
    (fun totalSaved =>
      if totalRequests = 0 then 0 else Int.fdiv (totalSaved * 1000) totalRequests)

/-- Spec-side best latency, written from the claim's words: the minimum
latency over caches reachable from the endpoint that store the video,
and the datacenter latency when no reachable cache stores it.  No clamp
against the datacenter latency is applied. -/
def spec_best_latency (ep : Endpoint) (cache_servers : List Cache) (vid : Nat) : Int :=
  match (ep.cacheLatencies.filter (fun p => vid ∈ videosAt cache_servers p.1)).map Prod.snd with
  | [] => ep.dcLatency
  | x :: xs => minList x xs

/-- Spec-side score, written from the claim's words: per-request saved
time `(dc - best_latency) * n`, summed, then
`floor(total_saved_time * 1000 / total_requests)` with result `0` when
`total_requests = 0`. -/
def spec_score (requests : List Request) (endpoints : List Endpoint)
    (cache_servers : List Cache) : Int :=
  let totalRequests : Int := (requests.map (fun r => r.2.2)).sum
  let totalSaved : Int :=
    (requests.map (fun r =>
      let ep := endpoints.getD r.2.1 dEndpoint
      (ep.dcLatency - spec_best_latency ep cache_servers r.1) * r.2.2)).sum
  if totalRequests = 0 then 0 else Int.fdiv (totalSaved * 1000) totalRequests

/-- Amended spec-side best latency: as `spec_best_latency` but clamped so
that it never exceeds the datacenter latency, matching the code. -/
def spec_best_latency_clamped (ep : Endpoint) (cache_servers : List Cache) (vid : Nat) : Int :=
  minList ep.dcLatency
    ((ep.cacheLatencies.filter (fun p => vid ∈ videosAt cache_servers p.1)).map Prod.snd)

/-- Per-request saved time `(dc - best_latency) * n` with the clamped
best latency. -/
def savedTime (endpoints : List Endpoint) (caches : List Cache) (r : Request) : Int :=
  let ep := endpoints.getD r.2.1 dEndpoint
  (ep.dcLatency - spec_best_latency_clamped ep caches r.1) * r.2.2

/-- Amended spec-side score: as `spec_score` but with the clamped best
latency. -/
def spec_score_clamped (requests : List Request) (endpoints : List Endpoint)
    (cache_servers : List Cache) : Int :=
  let totalRequests : Int := (requests.map (fun r => r.2.2)).sum
  let totalSaved : Int := (requests.map (savedTime endpoints cache_servers)).sum
  if totalRequests = 0 then 0 else Int.fdiv (totalSaved * 1000) totalRequests

section ScorerLemmas

theorem videosAt_oob (sol : List Cache) (i : Nat) (h : sol.length ≤ i) :
    videosAt sol i = ∅ := by
  unfold videosAt
  rw [getD_oob _ _ _ h]
  rfl

theorem getElem?_eq_getD {α : Type} (l : List α) (i : Nat) (d : α) (h : i < l.length) :
    l[i]? = some (l.getD i d) := by
  induction l generalizing i with
  | nil => simp at h
  | cons x xs ih =>
    cases i with
    | zero => simp [List.getD]
    | succ n =>
      simp only [List.getElem?_cons_succ, List.getD_cons_succ]
      exact ih n (by simpa using h)

theorem foldl_min_optGuard (g : Nat → Option Int) (l : List Nat) (start : Int) :
    l.foldl (fun best cid =>
        match g cid with
        | some lat => min best lat
        | none => best) start
      = minList start (l.filterMap g) := by
  induction l generalizing start with
  | nil => rfl
  | cons c rest ih =>
    cases hg : g c with
    | none => simp only [List.foldl_cons, hg, List.filterMap_cons, ih]
    | some lat =>
      simp only [List.foldl_cons, hg, List.filterMap_cons, ih, minList_cons]

theorem foldl_min_guard (caches : List Cache) (vid : Nat) (L : List (Nat × Int)) (start : Int) :
    L.foldl (fun best p => if vid ∈ videosAt caches p.1 then min best p.2 else best) start
      = minList start ((L.filter (fun p => vid ∈ videosAt caches p.1)).map Prod.snd) := by
  induction L generalizing start with
  | nil => rfl
  | cons p rest ih =>
    by_cases h : vid ∈ videosAt caches p.1
    · rw [List.foldl_cons, if_pos h, ih]
      have hf : (p :: rest).filter (fun q => vid ∈ videosAt caches q.1)
          = p :: rest.filter (fun q => vid ∈ videosAt caches q.1) := by
        simp [List.filter_cons, h]
      rw [hf, List.map_cons, minList_cons]
    · rw [List.foldl_cons, if_neg h, ih]
      have hf : (p :: rest).filter (fun q => vid ∈ videosAt caches q.1)
          = rest.filter (fun q => vid ∈ videosAt caches q.1) := by
        simp [List.filter_cons, h]
      rw [hf]

theorem best_latency_main_as_minList (ep : Endpoint) (caches : List Cache) (vid : Nat) :
    best_latency_main ep caches vid
      = minList ep.dcLatency ((List.range caches.length).filterMap
          (fun cid => if vid ∈ videosAt caches cid then dictLookup cid ep.cacheLatencies
                      else none)) := by
  unfold best_latency_main
  rw [List.foldl_ext _ (fun best cid =>
      match (if vid ∈ videosAt caches cid then dictLookup cid ep.cacheLatencies
             else none) with
      | some lat => min best lat
      | none => best) _ ?_]
  · exact foldl_min_optGuard _ _ _
  · intro best cid _
    by_cases h : vid ∈ videosAt caches cid
    · simp [h]
    · simp [h]

theorem best_latency_main_eq (ep : Endpoint) (caches : List Cache) (vid : Nat)
    (hnd : (ep.cacheLatencies.map Prod.fst).Nodup) :
    best_latency_main ep caches vid = spec_best_latency_clamped ep caches vid := by
  rw [best_latency_main_as_minList]
  unfold spec_best_latency_clamped
  apply minList_eq_of_mem_iff
  intro x
  constructor
  · intro hx
    rcases List.mem_filterMap.mp hx with ⟨cid, _, hg⟩
    by_cases hm : vid ∈ videosAt caches cid
    · rw [if_pos hm] at hg
      exact List.mem_map.mpr
        ⟨(cid, x), List.mem_filter.mpr ⟨dictLookup_mem hg, by simpa using hm⟩, rfl⟩
    · rw [if_neg hm] at hg
      exact absurd hg (by simp)
  · intro hx
    rcases List.mem_map.mp hx with ⟨p, hp, hpx⟩
    rcases List.mem_filter.mp hp with ⟨hpL, hstore⟩
    have hstore' : vid ∈ videosAt caches p.1 := by simpa using hstore
    have hlt : p.1 < caches.length := by
      by_contra hge
      rw [videosAt_oob _ _ (le_of_not_lt hge)] at hstore'
      simp at hstore'
    refine List.mem_filterMap.mpr ⟨p.1, List.mem_range.mpr hlt, ?_⟩
    rw [if_pos hstore']
    have hpp : (p.1, p.2) ∈ ep.cacheLatencies := by
      cases p with
      | mk a b => exact hpL
    rw [mem_dictLookup hnd hpp, hpx]

theorem inner_fold_main2 (caches : List Cache) (vid : Nat) (L : List (Nat × Int))
    (start : Int) (hC : ∀ p ∈ L, p.1 < caches.length) :
    (L.foldlM (fun (best : Int) p =>
        (caches[p.1]?).map
          (fun c => if vid ∈ c.videos then min best p.2 else best)) start : Option Int)
      = some (minList start ((L.filter (fun p => vid ∈ videosAt caches p.1)).map Prod.snd)) := by
  rw [← foldl_min_guard]
  induction L generalizing start with
  | nil => rfl
  | cons p rest ih =>
    have hp : caches[p.1]? = some (caches.getD p.1 dCache) :=
      getElem?_eq_getD _ _ _ (hC p (List.mem_cons_self _ _))
    simp only [List.foldlM_cons, hp, Option.map_some', Option.bind_some, List.foldl_cons]
    have : (if vid ∈ (caches.getD p.1 dCache).videos then min start p.2 else start)
        = (if vid ∈ videosAt caches p.1 then min start p.2 else start) := rfl
    rw [Option.bind_eq_bind]
    show (rest.foldlM _ (if vid ∈ (caches.getD p.1 dCache).videos then min start p.2 else start) : Option Int) = _
    rw [this]
    exact ih _ (fun q hq => hC q (List.mem_cons_of_mem _ hq))

theorem ite_lt_eq_min (a b : Int) : (if a < b then a else b) = min b a := by
  rcases lt_or_le a b with h | h
  · rw [if_pos h, min_eq_right (le_of_lt h)]
  · rw [if_neg (not_lt.mpr h), min_eq_left h]

theorem inner_fold_ushtrime (caches : List Cache) (vid : Nat) (L : List (Nat × Int))
    (start : Int) (hC : ∀ p ∈ L, p.1 < caches.length) :
    (L.foldlM (fun (m : Int) p =>
        (caches[p.1]?).map
          (fun c => if vid ∈ c.videos then (if p.2 < m then p.2 else m) else m)) start : Option Int)
      = some (minList start ((L.filter (fun p => vid ∈ videosAt caches p.1)).map Prod.snd)) := by
  rw [← inner_fold_main2 caches vid L start hC]
  induction L generalizing start with
  | nil => rfl
  | cons p rest ih =>
    have hp : caches[p.1]? = some (caches.getD p.1 dCache) :=
      getElem?_eq_getD _ _ _ (hC p (List.mem_cons_self _ _))
    simp only [List.foldlM_cons, hp, Option.map_some', Option.bind_some, Option.bind_eq_bind]
    rw [ite_lt_eq_min]
    exact ih _ (fun q hq => hC q (List.mem_cons_of_mem _ hq))

theorem score_main_fold (requests : List Request) (endpoints : List Endpoint)
    (caches : List Cache) (acc : Int)
    (hE : ∀ r ∈ requests, r.2.1 < endpoints.length) :
    (requests.foldlM
      (fun (acc : Int) r =>
        (endpoints[r.2.1]?).map
          (fun ep => acc + (ep.dcLatency - best_latency_main ep caches r.1) * r.2.2))
      acc : Option Int)
      = some (acc + (requests.map (fun r =>
          let ep := endpoints.getD r.2.1 dEndpoint
          (ep.dcLatency - best_latency_main ep caches r.1) * r.2.2)).sum) := by
  induction requests generalizing acc with
  | nil => simp
  | cons r rest ih =>
    have hr : endpoints[r.2.1]? = some (endpoints.getD r.2.1 dEndpoint) :=
      getElem?_eq_getD _ _ _ (hE r (List.mem_cons_self _ _))
    simp only [List.foldlM_cons, hr, Option.map_some', Option.some_bind, Option.bind_eq_bind,
      List.map_cons, List.sum_cons]
    rw [ih _ (fun q hq => hE q (List.mem_cons_of_mem _ hq))]
    congr 1
    ring

theorem score2Step_eq (endpoints : List Endpoint) (caches : List Cache)
    (acc : Int × Int) (r : Request)
    (hr : r.2.1 < endpoints.length)
    (hC : ∀ ep ∈ endpoints, ∀ p ∈ ep.cacheLatencies, p.1 < caches.length) :
    score2Step endpoints caches acc r
      = some (acc.1 + savedTime endpoints caches r, acc.2 + r.2.2) := by
  have hr' : endpoints[r.2.1]? = some (endpoints.getD r.2.1 dEndpoint) :=
    getElem?_eq_getD _ _ _ hr
  have hmem : endpoints.getD r.2.1 dEndpoint ∈ endpoints := getD_mem _ _ _ hr
  have hinner := inner_fold_main2 caches r.1
    (endpoints.getD r.2.1 dEndpoint).cacheLatencies
    (endpoints.getD r.2.1 dEndpoint).dcLatency
    (fun p hp => hC _ hmem p hp)
  have hAtom : savedTime endpoints caches r
      = ((endpoints.getD r.2.1 dEndpoint).dcLatency -
          minList (endpoints.getD r.2.1 dEndpoint).dcLatency
            (((endpoints.getD r.2.1 dEndpoint).cacheLatencies.filter
              (fun p => r.1 ∈ videosAt caches p.1)).map Prod.snd)) * r.2.2 := rfl
  unfold score2Step
  rw [hr']
  simp only [Option.bind_eq_bind, Option.some_bind]
  rw [hinner]
  simp only [Option.some_bind, hAtom]
  rfl

theorem score_main2_fold (requests : List Request) (endpoints : List Endpoint)
    (caches : List Cache) (acc : Int × Int)
    (hE : ∀ r ∈ requests, r.2.1 < endpoints.length)
    (hC : ∀ ep ∈ endpoints, ∀ p ∈ ep.cacheLatencies, p.1 < caches.length) :
    ((requests.foldlM (score2Step endpoints caches) acc) : Option (Int × Int))
      = some (acc.1 + (requests.map (savedTime endpoints caches)).sum,
              acc.2 + (requests.map (fun r => r.2.2)).sum) := by
  induction requests generalizing acc with
  | nil => simp
  | cons r rest ih =>
    rw [List.foldlM_cons,
      score2Step_eq endpoints caches acc r (hE r (List.mem_cons_self _ _)) hC]
    simp only [Option.bind_eq_bind, Option.some_bind]
    rw [ih _ (fun q hq => hE q (List.mem_cons_of_mem _ hq))]
    rw [List.map_cons, List.sum_cons, List.map_cons, List.sum_cons]
    congr 1
    rw [Prod.mk.injEq]
    exact ⟨by ring, by ring⟩

theorem ushStep_eq (caches : List Cache) (endpoints : List Endpoint)
    (acc : Int) (r : Request)
    (hr : r.2.1 < endpoints.length)
    (hC : ∀ ep ∈ endpoints, ∀ p ∈ ep.cacheLatencies, p.1 < caches.length) :
    ushStep caches endpoints acc r
      = some (acc + savedTime endpoints caches r) := by
  have hr' : endpoints[r.2.1]? = some (endpoints.getD r.2.1 dEndpoint) :=
    getElem?_eq_getD _ _ _ hr
  have hmem : endpoints.getD r.2.1 dEndpoint ∈ endpoints := getD_mem _ _ _ hr
  have hinner := inner_fold_ushtrime caches r.1
    (endpoints.getD r.2.1 dEndpoint).cacheLatencies
    (endpoints.getD r.2.1 dEndpoint).dcLatency
    (fun p hp => hC _ hmem p hp)
  have hle : minList (endpoints.getD r.2.1 dEndpoint).dcLatency
      (((endpoints.getD r.2.1 dEndpoint).cacheLatencies.filter
        (fun p => r.1 ∈ videosAt caches p.1)).map Prod.snd)
      ≤ (endpoints.getD r.2.1 dEndpoint).dcLatency := minList_le_start _ _
  unfold ushStep
  rw [hr']
  simp only [Option.bind_eq_bind, Option.some_bind]
  rw [hinner]
  simp only [Option.some_bind]
  rw [max_eq_left (sub_nonneg.mpr hle)]
  rfl

theorem score_ush_fold (requests : List Request) (caches : List Cache)
    (endpoints : List Endpoint) (acc : Int)
    (hE : ∀ r ∈ requests, r.2.1 < endpoints.length)
    (hC : ∀ ep ∈ endpoints, ∀ p ∈ ep.cacheLatencies, p.1 < caches.length) :
    ((requests.foldlM (ushStep caches endpoints) acc) : Option Int)
      = some (acc + (requests.map (savedTime endpoints caches)).sum) := by
  induction requests generalizing acc with
  | nil => simp
  | cons r rest ih =>
    rw [List.foldlM_cons,
      ushStep_eq caches endpoints acc r (hE r (List.mem_cons_self _ _)) hC]
    simp only [Option.bind_eq_bind, Option.some_bind]
    rw [ih _ (fun q hq => hE q (List.mem_cons_of_mem _ hq))]
    rw [List.map_cons, List.sum_cons]
    congr 1
    ring

/-- Shared helper: under in-range endpoint references, unique latency
keys and a non-negative request total, `main.py`'s scorer computes the
clamped spec score. -/
theorem score_main_eq_spec (requests : List Request) (endpoints : List Endpoint)
    (cache_servers : List Cache)
    (hE : ∀ r ∈ requests, r.2.1 < endpoints.length)
    (hnd : ∀ ep ∈ endpoints, (ep.cacheLatencies.map Prod.fst).Nodup)
    (ht : 0 ≤ (requests.map (fun r => r.2.2)).sum) :
    calculate_score_main requests endpoints cache_servers
      = some (spec_score_clamped requests endpoints cache_servers) := by
  unfold calculate_score_main
  rw [score_main_fold requests endpoints cache_servers 0 hE]
  have hmap : requests.map (fun r =>
      let ep := endpoints.getD r.2.1 dEndpoint
      (ep.dcLatency - best_latency_main ep cache_servers r.1) * r.2.2)
      = requests.map (savedTime endpoints cache_servers) := by
    apply List.map_congr_left
    intro r hr
    have hmem : endpoints.getD r.2.1 dEndpoint ∈ endpoints := getD_mem _ _ _ (hE r hr)
    show ((endpoints.getD r.2.1 dEndpoint).dcLatency -
          best_latency_main (endpoints.getD r.2.1 dEndpoint) cache_servers r.1) * r.2.2
        = ((endpoints.getD r.2.1 dEndpoint).dcLatency -
          spec_best_latency_clamped (endpoints.getD r.2.1 dEndpoint) cache_servers r.1) * r.2.2
    rw [best_latency_main_eq _ _ _ (hnd _ hmem)]
  rw [hmap, Option.map_some', zero_add]
  unfold spec_score_clamped
  rcases eq_or_lt_of_le ht with h0 | h0
  · rw [if_neg (by omega), if_pos (by omega)]
  · rw [if_pos h0, if_neg (by omega)]

/-- Shared helper: under in-range endpoint and cache references,
`main_2_otherOperators.py`'s scorer computes the clamped spec score. -/
theorem score_main2_eq_spec (requests : List Request) (endpoints : List Endpoint)
    (cache_servers : List Cache)
    (hE : ∀ r ∈ requests, r.2.1 < endpoints.length)
    (hC : ∀ ep ∈ endpoints, ∀ p ∈ ep.cacheLatencies, p.1 < cache_servers.length) :
    calculate_score_main2 requests endpoints cache_servers
      = some (spec_score_clamped requests endpoints cache_servers) := by
  unfold calculate_score_main2
  rw [score_main2_fold requests endpoints cache_servers (0, 0) hE hC]
  rw [Option.map_some']
  unfold spec_score_clamped
  simp only [zero_add]

/-- Shared helper: under in-range endpoint and cache references,
`ushtrime.py`'s scorer computes the clamped spec score. -/
theorem score_ush_eq_spec (requests : List Request) (endpoints : List Endpoint)
    (cache_servers : List Cache)
    (hE : ∀ r ∈ requests, r.2.1 < endpoints.length)
    (hC : ∀ ep ∈ endpoints, ∀ p ∈ ep.cacheLatencies, p.1 < cache_servers.length) :
    calculate_score_ushtrime cache_servers endpoints requests
      = some (spec_score_clamped requests endpoints cache_servers) := by
  unfold calculate_score_ushtrime
  rw [score_ush_fold requests cache_servers endpoints 0 hE hC]
  rw [Option.map_some', zero_add]
  rfl

theorem ush_fold_nonneg (caches : List Cache) (endpoints : List Endpoint) :
    ∀ (requests : List Request), (∀ r ∈ requests, 0 ≤ r.2.2) →
      ∀ acc : Int, 0 ≤ acc → ∀ ts,
        ((requests.foldlM (ushStep caches endpoints) acc) : Option Int) = some ts →
          0 ≤ ts := by
  intro requests
  induction requests with
  | nil =>
    intro _ acc ha ts h
    simp only [List.foldlM_nil] at h
    have hat : acc = ts := by simpa using h
    omega
  | cons r rest ih =>
    intro hn acc ha ts h
    rw [List.foldlM_cons] at h
    rcases hstep : ushStep caches endpoints acc r with _ | a
    · rw [hstep] at h
      simp at h
    · rw [hstep] at h
      simp only [Option.bind_eq_bind, Option.some_bind] at h
      have ha' : 0 ≤ a := by
        simp only [ushStep, Option.bind_eq_bind, Option.bind_eq_some] at hstep
        rcases hstep with ⟨ep, _, minLat, _, hpure⟩
        have hval : acc + max (ep.dcLatency - minLat) 0 * r.2.2 = a := by
          simpa using hpure
        rw [← hval]
        exact add_nonneg ha
          (mul_nonneg (le_max_right _ _) (hn r (List.mem_cons_self _ _)))
      exact ih (fun q hq => hn q (List.mem_cons_of_mem _ hq)) a ha' ts h

end ScorerLemmas

section ScorerClaims

/-- C1, counterexample: on a well-formed instance where the only
reachable cache storing the video has latency 50 above the datacenter
latency 10, the claim's unclamped formula yields -40000 but
`calculate_score` in `main.py` clamps the best latency at the datacenter
latency and returns 0. -/
theorem c1_counterexample :
    calculate_score_main [(0, 0, 1)] [⟨10, [(0, 50)]⟩] [⟨{0}, 0⟩]
      ≠ some (spec_score [(0, 0, 1)] [⟨10, [(0, 50)]⟩] [⟨{0}, 0⟩]) := by
  decide

/-- C1 (amended): for in-range endpoint references, in-range latency-dict
cache ids, well-formed (unique-key) latency dicts and a non-negative
request total, both `calculate_score` implementations return
`floor(total_saved_time * 1000 / total_requests)` (and `0` when
`total_requests` is 0), where the per-request best latency is the
minimum over reachable caches storing the video, clamped to never exceed
the datacenter latency. -/
theorem c1_score_formula (requests : List Request) (endpoints : List Endpoint)
    (cache_servers : List Cache)
    (hE : ∀ r ∈ requests, r.2.1 < endpoints.length)
    (hC : ∀ ep ∈ endpoints, ∀ p ∈ ep.cacheLatencies, p.1 < cache_servers.length)
    (hnd : ∀ ep ∈ endpoints, (ep.cacheLatencies.map Prod.fst).Nodup)
    (ht : 0 ≤ (requests.map (fun r => r.2.2)).sum) :
    calculate_score_main requests endpoints cache_servers
        = some (spec_score_clamped requests endpoints cache_servers) ∧
    calculate_score_main2 requests endpoints cache_servers
        = some (spec_score_clamped requests endpoints cache_servers) :=
  ⟨score_main_eq_spec requests endpoints cache_servers hE hnd ht,
   score_main2_eq_spec requests endpoints cache_servers hE hC⟩

/-- C1, witness: the amended formula at a concrete instance. -/
theorem c1_score_formula_witness :
    calculate_score_main [(0, 0, 2)] [⟨10, [(0, 3)]⟩] [⟨{0}, 0⟩]
        = some (spec_score_clamped [(0, 0, 2)] [⟨10, [(0, 3)]⟩] [⟨{0}, 0⟩]) ∧
    calculate_score_main2 [(0, 0, 2)] [⟨10, [(0, 3)]⟩] [⟨{0}, 0⟩]
        = some (spec_score_clamped [(0, 0, 2)] [⟨10, [(0, 3)]⟩] [⟨{0}, 0⟩]) :=
  c1_score_formula [(0, 0, 2)] [⟨10, [(0, 3)]⟩] [⟨{0}, 0⟩]
    (by decide) (by decide) (by decide) (by decide)

/-- C6, counterexample: with request counts summing to a negative total,
`main.py` returns 0 (its guard is `total_requests > 0`) while
`main_2_otherOperators.py` floor-divides by the negative total and
returns 10000. -/
theorem c6_counterexample :
    calculate_score_main2 [(0, 0, 1), (0, 0, -2)] [⟨10, [(0, 0)]⟩] [⟨{0}, 0⟩]
      ≠ calculate_score_main [(0, 0, 1), (0, 0, -2)] [⟨10, [(0, 0)]⟩] [⟨{0}, 0⟩] := by
  decide

/-- C6 (amended): for in-range endpoint references, in-range latency-dict
cache ids, well-formed latency dicts and a non-negative request total,
the three `calculate_score` implementations return the same integer. -/
theorem c6_scorers_agree (requests : List Request) (endpoints : List Endpoint)
    (cache_servers : List Cache)
    (hE : ∀ r ∈ requests, r.2.1 < endpoints.length)
    (hC : ∀ ep ∈ endpoints, ∀ p ∈ ep.cacheLatencies, p.1 < cache_servers.length)
    (hnd : ∀ ep ∈ endpoints, (ep.cacheLatencies.map Prod.fst).Nodup)
    (ht : 0 ≤ (requests.map (fun r => r.2.2)).sum) :
    ∃ s : Int,
      calculate_score_main requests endpoints cache_servers = some s ∧
      calculate_score_main2 requests endpoints cache_servers = some s ∧
      calculate_score_ushtrime cache_servers endpoints requests = some s :=
  ⟨spec_score_clamped requests endpoints cache_servers,
   score_main_eq_spec requests endpoints cache_servers hE hnd ht,
   score_main2_eq_spec requests endpoints cache_servers hE hC,
   score_ush_eq_spec requests endpoints cache_servers hE hC⟩

/-- C6, witness: the three scorers agree at a concrete instance. -/
theorem c6_scorers_agree_witness :
    ∃ s : Int,
      calculate_score_main [(0, 0, 2)] [⟨10, [(0, 3)]⟩] [⟨{0}, 50⟩] = some s ∧
      calculate_score_main2 [(0, 0, 2)] [⟨10, [(0, 3)]⟩] [⟨{0}, 50⟩] = some s ∧
      calculate_score_ushtrime [⟨{0}, 50⟩] [⟨10, [(0, 3)]⟩] [(0, 0, 2)] = some s :=
  c6_scorers_agree [(0, 0, 2)] [⟨10, [(0, 3)]⟩] [⟨{0}, 50⟩]
    (by decide) (by decide) (by decide) (by decide)

/-- C10: with non-negative request counts and in-range endpoint
references, both scorers return a non-negative result whenever they
return at all, because the best latency never exceeds the datacenter
latency. -/
theorem c10_score_nonneg (requests : List Request) (endpoints : List Endpoint)
    (cache_servers : List Cache)
    (hE : ∀ r ∈ requests, r.2.1 < endpoints.length)
    (hn : ∀ r ∈ requests, 0 ≤ r.2.2) :
    (∀ s, calculate_score_main requests endpoints cache_servers = some s → 0 ≤ s) ∧
    (∀ s, calculate_score_ushtrime cache_servers endpoints requests = some s → 0 ≤ s) := by
  constructor
  · intro s hs
    unfold calculate_score_main at hs
    rw [score_main_fold requests endpoints cache_servers 0 hE, Option.map_some',
      Option.some.injEq] at hs
    have hts : 0 ≤ 0 + (requests.map (fun r =>
        let ep := endpoints.getD r.2.1 dEndpoint
        (ep.dcLatency - best_latency_main ep cache_servers r.1) * r.2.2)).sum := by
      rw [zero_add]
      apply List.sum_nonneg
      intro x hx
      rcases List.mem_map.mp hx with ⟨r, hr, hrx⟩
      rw [← hrx]
      have hbest : best_latency_main (endpoints.getD r.2.1 dEndpoint) cache_servers r.1
          ≤ (endpoints.getD r.2.1 dEndpoint).dcLatency := by
        rw [best_latency_main_as_minList]
        exact minList_le_start _ _
      exact mul_nonneg (sub_nonneg.mpr hbest) (hn r hr)
    rw [← hs]
    by_cases h0 : 0 < (requests.map (fun r => r.2.2)).sum
    · rw [if_pos h0]
      exact Int.fdiv_nonneg (by linarith) (le_of_lt h0)
    · rw [if_neg h0]
  · intro s hs
    unfold calculate_score_ushtrime at hs
    rcases Option.map_eq_some'.mp hs with ⟨ts, hts, hval⟩
    have h1 : 0 ≤ ts :=
      ush_fold_nonneg cache_servers endpoints requests hn 0 le_rfl ts hts
    have h2 : 0 ≤ (requests.map (fun r => r.2.2)).sum :=
      List.sum_nonneg (by
        intro x hx
        rcases List.mem_map.mp hx with ⟨r, hr, hrx⟩
        rw [← hrx]
        exact hn r hr)
    rw [← hval]
    by_cases h0 : (requests.map (fun r => r.2.2)).sum = 0
    · rw [if_pos h0]
    · rw [if_neg h0]
      exact Int.fdiv_nonneg (by linarith) h2

/-- C10, witness: non-negativity at concrete instances (`main.py` scores
7000, `ushtrime.py` scores 0 on an empty cache). -/
theorem c10_score_nonneg_witness : (0 : Int) ≤ 7000 ∧ (0 : Int) ≤ 0 :=
  ⟨(c10_score_nonneg [(0, 0, 2)] [⟨10, [(0, 3)]⟩] [⟨{0}, 0⟩]
      (by decide) (by decide)).1 7000 (by decide),
   (c10_score_nonneg [(0, 0, 2)] [⟨10, [(0, 3)]⟩] [⟨∅, 0⟩]
      (by decide) (by decide)).2 0 (by decide)⟩

end ScorerClaims

/-! ## Local-search mutation operators (`main.py`)

`perturb_solution` and `generate_neighbor` deep-copy the incumbent and
mutate the copy; in this pure embedding the copy is implicit.  Random
draws are passed as explicit choice values.  List indexing of
`video_sizes` is modelled with `List.getD _ _ 0`; the in-range case is
the one exercised by the source. -/

/-- Random choices consumed by one repetition of the `perturb_solution`
loop: the cache drawn by `random.randint(0, C-1)`, the index of the
video drawn by `random.choice`, and the cache order drawn by
`random.sample(range(C), C)`. -/
structure PerturbChoice where
  cacheId : Nat
  vidIdx : Nat
  perm : List Nat

/-- Ascending listing of a finite set of video ids, used wherever the
source iterates or lists a Python set. -/
def finsetAsc (s : Finset Nat) : List Nat :=
  (List.range (s.fold max 0 id + 1)).filter (fun v => v ∈ s)

/-- Element drawn by `random.choice(list(s))`: the index is taken modulo
the listing's length, so the draw is a member whenever `s` is non-empty. -/
def pickFrom (s : Finset Nat) (i : Nat) : Nat :=
  (finsetAsc s).getD (i % (finsetAsc s).length) 0

/-- Re-insertion loop of `perturb_solution`: scan the drawn cache order,
skip the origin cache, and first-fit into the first cache with enough
remaining capacity; the video stays unassigned when none accepts it. -/
def reinsertFF (origin vid : Nat) (sz : Int) : List Nat → List Cache → List Cache
  | [], sol => sol
  | c :: rest, sol =>
    if c ≠ origin ∧ sz ≤ remAt sol c then
      sol.set c ⟨insert vid (videosAt sol c), remAt sol c - sz⟩
    else reinsertFF origin vid sz rest sol

/-- One repetition of the `perturb_solution` loop: skip when the drawn
cache holds no videos, otherwise remove a drawn video (returning its
capacity) and try to re-insert it into a different cache. -/
def perturb_step (video_sizes : List Int) (sol : List Cache) (ch : PerturbChoice) :
    List Cache :=
  if videosAt sol ch.cacheId = ∅ then sol
  else
    let vid := pickFrom (videosAt sol ch.cacheId) ch.vidIdx
    let sz := video_sizes.getD vid 0
    reinsertFF ch.cacheId vid sz ch.perm
      (sol.set ch.cacheId
        ⟨(videosAt sol ch.cacheId).erase vid, remAt sol ch.cacheId + sz⟩)

/-- `perturb_solution` of `main.py`: apply `num_changes` repetitions (3
by default in the source; the choice list carries them). -/
def perturb_solution (video_sizes : List Int) (solution : List Cache)
    (choices : List PerturbChoice) : List Cache :=
  choices.foldl (perturb_step video_sizes) solution

/-- Random choices consumed by `generate_neighbor`: the two distinct
caches drawn by `random.sample(range(C), 2)` and the indices of the
videos drawn by `random.choice`. -/
structure NeighborChoice where
  c1 : Nat
  c2 : Nat
  ne : c1 ≠ c2
  i1 : Nat
  i2 : Nat

/-- `generate_neighbor` of `main.py`: swap one video between two drawn
caches when both resulting occupancies stay within capacity, otherwise
return the copy unchanged. -/
def generate_neighbor (video_sizes : List Int) (sol : List Cache)
    (ch : NeighborChoice) : List Cache :=
  if videosAt sol ch.c1 = ∅ ∨ videosAt sol ch.c2 = ∅ then sol
  else
    let vid1 := pickFrom (videosAt sol ch.c1) ch.i1
    let vid2 := pickFrom (videosAt sol ch.c2) ch.i2
    let s1 := video_sizes.getD vid1 0
    let s2 := video_sizes.getD vid2 0
    if s2 ≤ remAt sol ch.c1 + s1 ∧ s1 ≤ remAt sol ch.c2 + s2 then
      (sol.set ch.c1
        ⟨insert vid2 ((videosAt sol ch.c1).erase vid1), remAt sol ch.c1 + (s1 - s2)⟩).set
        ch.c2
        ⟨insert vid1 ((videosAt sol ch.c2).erase vid2), remAt sol ch.c2 - (s1 - s2)⟩
    else sol

/-- Total assigned size of a cache. -/
def cacheSum (video_sizes : List Int) (c : Cache) : Int :=
  ∑ v ∈ c.videos, video_sizes.getD v 0

/-- Feasibility bookkeeping for one cache: assigned sizes within the
capacity, `remaining_capacity` consistent, and non-negative. -/
def CacheOk (video_sizes : List Int) (X : Int) (c : Cache) : Prop :=
  cacheSum video_sizes c ≤ X ∧ c.remaining = X - cacheSum video_sizes c ∧ 0 ≤ c.remaining

/-- No video appears in two distinct caches. -/
def NoOverlap (sol : List Cache) : Prop :=
  ∀ i, i < sol.length → ∀ j, j < sol.length → i ≠ j →
    videosAt sol i ∩ videosAt sol j = ∅

/-- The feasibility invariants of the claim: per-cache bookkeeping plus
uniqueness across caches. -/
def SolutionOk (video_sizes : List Int) (X : Int) (sol : List Cache) : Prop :=
  (∀ c ∈ sol, CacheOk video_sizes X c) ∧ NoOverlap sol

instance (video_sizes : List Int) (X : Int) (c : Cache) :
    Decidable (CacheOk video_sizes X c) := by
  unfold CacheOk
  infer_instance

instance (sol : List Cache) : Decidable (NoOverlap sol) := by
  unfold NoOverlap
  infer_instance

instance (video_sizes : List Int) (X : Int) (sol : List Cache) :
    Decidable (SolutionOk video_sizes X sol) := by
  unfold SolutionOk
  infer_instance

section MutationLemmas

theorem le_fold_max (v : Nat) : ∀ (s : Finset Nat), v ∈ s → v ≤ s.fold max 0 id := by
  intro s
  induction s using Finset.induction_on with
  | empty => intro h; simp at h
  | @insert a t ha ih =>
    intro h
    rw [Finset.fold_insert ha]
    rcases Finset.mem_insert.mp h with he | hm
    · exact he ▸ le_max_left _ _
    · exact le_trans (ih hm) (le_max_right _ _)

theorem mem_finsetAsc (s : Finset Nat) (v : Nat) : v ∈ finsetAsc s ↔ v ∈ s := by
  unfold finsetAsc
  constructor
  · intro h
    have hf := List.mem_filter.mp h
    simpa using hf.2
  · intro h
    apply List.mem_filter.mpr
    constructor
    · exact List.mem_range.mpr (Nat.lt_succ_of_le (le_fold_max v s h))
    · simpa using h

theorem finsetAsc_length_ne_zero (s : Finset Nat) (h : s ≠ ∅) :
    (finsetAsc s).length ≠ 0 := by
  rcases Finset.nonempty_iff_ne_empty.mpr h with ⟨v, hv⟩
  intro hlen
  rw [List.length_eq_zero] at hlen
  have hmem := (mem_finsetAsc s v).mpr hv
  rw [hlen] at hmem
  simp at hmem

theorem pickFrom_mem (s : Finset Nat) (i : Nat) (h : s ≠ ∅) : pickFrom s i ∈ s := by
  have hpos : 0 < (finsetAsc s).length :=
    Nat.pos_of_ne_zero (finsetAsc_length_ne_zero s h)
  have hk : i % (finsetAsc s).length < (finsetAsc s).length := Nat.mod_lt _ hpos
  have hval : pickFrom s i = (finsetAsc s)[i % (finsetAsc s).length] := by
    unfold pickFrom
    rw [List.getD_eq_getElem?_getD, List.getElem?_eq_getElem hk]
    rfl
  rw [hval]
  exact (mem_finsetAsc s _).mp (List.getElem_mem hk)

theorem getD_size_nonneg (video_sizes : List Int)
    (hs : ∀ s ∈ video_sizes, 0 ≤ s) (v : Nat) : 0 ≤ video_sizes.getD v 0 := by
  by_cases h : v < video_sizes.length
  · exact hs _ (getD_mem _ _ _ h)
  · rw [getD_oob _ _ _ (le_of_not_lt h)]

theorem videosAt_set_self (sol : List Cache) (i : Nat) (c : Cache)
    (h : i < sol.length) : videosAt (sol.set i c) i = c.videos := by
  unfold videosAt
  rw [getD_set_self _ _ _ _ h]

theorem videosAt_set_ne (sol : List Cache) (i j : Nat) (c : Cache)
    (h : i ≠ j) : videosAt (sol.set i c) j = videosAt sol j := by
  unfold videosAt
  rw [getD_set_ne _ _ _ _ _ h]

theorem remAt_set_self (sol : List Cache) (i : Nat) (c : Cache)
    (h : i < sol.length) : remAt (sol.set i c) i = c.remaining := by
  unfold remAt
  rw [getD_set_self _ _ _ _ h]

theorem remAt_set_ne (sol : List Cache) (i j : Nat) (c : Cache)
    (h : i ≠ j) : remAt (sol.set i c) j = remAt sol j := by
  unfold remAt
  rw [getD_set_ne _ _ _ _ _ h]

theorem videosAt_nonempty_lt (sol : List Cache) (i : Nat)
    (h : videosAt sol i ≠ ∅) : i < sol.length := by
  by_contra hge
  exact h (videosAt_oob _ _ (le_of_not_lt hge))

theorem noOverlap_not_mem {sol : List Cache} (h : NoOverlap sol) {i j : Nat}
    (hij : i ≠ j) {v : Nat} (hv : v ∈ videosAt sol i) : v ∉ videosAt sol j := by
  intro hv2
  by_cases hi : i < sol.length
  · by_cases hj : j < sol.length
    · have hinter := h i hi j hj hij
      have hmem : v ∈ videosAt sol i ∩ videosAt sol j := Finset.mem_inter.mpr ⟨hv, hv2⟩
      rw [hinter] at hmem
      simp at hmem
    · rw [videosAt_oob _ _ (le_of_not_lt hj)] at hv2
      simp at hv2
  · rw [videosAt_oob _ _ (le_of_not_lt hi)] at hv
    simp at hv

theorem noOverlap_of_forall {sol : List Cache}
    (h : ∀ i j, i ≠ j → ∀ v, v ∈ videosAt sol i → v ∉ videosAt sol j) :
    NoOverlap sol := by
  intro i _ j _ hij
  rw [Finset.eq_empty_iff_forall_not_mem]
  intro v hv
  rcases Finset.mem_inter.mp hv with ⟨h1, h2⟩
  exact h i j hij v h1 h2

theorem cacheOk_at (video_sizes : List Int) (X : Int) (sol : List Cache)
    (hok : ∀ c ∈ sol, CacheOk video_sizes X c) (i : Nat) (h : i < sol.length) :
    (∑ v ∈ videosAt sol i, video_sizes.getD v 0) ≤ X ∧
      remAt sol i = X - ∑ v ∈ videosAt sol i, video_sizes.getD v 0 ∧
      0 ≤ remAt sol i :=
  hok _ (getD_mem _ _ dCache h)

theorem cacheOk_mk (video_sizes : List Int) (X : Int) (V : Finset Nat) (R : Int)
    (h1 : (∑ v ∈ V, video_sizes.getD v 0) ≤ X)
    (h2 : R = X - ∑ v ∈ V, video_sizes.getD v 0) (h3 : 0 ≤ R) :
    CacheOk video_sizes X ⟨V, R⟩ :=
  ⟨h1, h2, h3⟩

theorem removal_ok (video_sizes : List Int) (X : Int) (sol : List Cache)
    (hs : ∀ s ∈ video_sizes, 0 ≤ s) (hok : SolutionOk video_sizes X sol)
    (c0 vid : Nat) (hvid : vid ∈ videosAt sol c0) :
    SolutionOk video_sizes X
      (sol.set c0 ⟨(videosAt sol c0).erase vid,
        remAt sol c0 + video_sizes.getD vid 0⟩) ∧
    ∀ j, vid ∉ videosAt
      (sol.set c0 ⟨(videosAt sol c0).erase vid,
        remAt sol c0 + video_sizes.getD vid 0⟩) j := by
  have hlt : c0 < sol.length :=
    videosAt_nonempty_lt _ _ (fun he => by rw [he] at hvid; simp at hvid)
  have hco := cacheOk_at video_sizes X sol hok.1 c0 hlt
  have hsum : (∑ v ∈ (videosAt sol c0).erase vid, video_sizes.getD v 0)
      + video_sizes.getD vid 0 = ∑ v ∈ videosAt sol c0, video_sizes.getD v 0 :=
    Finset.sum_erase_add _ _ hvid
  have hsz : 0 ≤ video_sizes.getD vid 0 := getD_size_nonneg _ hs _
  refine ⟨⟨?_, ?_⟩, ?_⟩
  · intro c hc
    rcases mem_of_mem_set _ _ _ _ hc with hcnew | hcold
    · rw [hcnew]
      exact cacheOk_mk _ _ _ _ (by omega) (by omega) (by omega)
    · exact hok.1 _ hcold
  · apply noOverlap_of_forall
    intro i j hij v hv
    have hvi : v ∈ videosAt sol i := by
      by_cases hi : i = c0
      · subst hi
        rw [videosAt_set_self _ _ _ hlt] at hv
        exact Finset.mem_of_mem_erase hv
      · rwa [videosAt_set_ne _ _ _ _ (fun he => hi he.symm)] at hv
    have hnv : v ∉ videosAt sol j := noOverlap_not_mem hok.2 hij hvi
    by_cases hj : j = c0
    · subst hj
      rw [videosAt_set_self _ _ _ hlt]
      intro hmem
      exact hnv (Finset.mem_of_mem_erase hmem)
    · rwa [videosAt_set_ne _ _ _ _ (fun he => hj he.symm)]
  · intro j
    by_cases hj : j = c0
    · subst hj
      rw [videosAt_set_self _ _ _ hlt]
      exact Finset.not_mem_erase _ _
    · rw [videosAt_set_ne _ _ _ _ (fun he => hj he.symm)]
      exact noOverlap_not_mem hok.2 (fun he => hj he.symm) hvid

theorem insertion_ok (video_sizes : List Int) (X : Int) (sol : List Cache)
    (hok : SolutionOk video_sizes X sol) (c vid : Nat)
    (habs : ∀ j, vid ∉ videosAt sol j)
    (hfit : video_sizes.getD vid 0 ≤ remAt sol c) :
    SolutionOk video_sizes X
      (sol.set c ⟨insert vid (videosAt sol c),
        remAt sol c - video_sizes.getD vid 0⟩) := by
  by_cases hlt : c < sol.length
  case neg =>
    rw [set_oob _ _ _ (le_of_not_lt hlt)]
    exact hok
  have hco := cacheOk_at video_sizes X sol hok.1 c hlt
  have hsum : (∑ v ∈ insert vid (videosAt sol c), video_sizes.getD v 0)
      = video_sizes.getD vid 0 + ∑ v ∈ videosAt sol c, video_sizes.getD v 0 :=
    Finset.sum_insert (habs c)
  constructor
  · intro k hk
    rcases mem_of_mem_set _ _ _ _ hk with hknew | hkold
    · rw [hknew]
      exact cacheOk_mk _ _ _ _ (by omega) (by omega) (by omega)
    · exact hok.1 _ hkold
  · apply noOverlap_of_forall
    intro i j hij v hv
    by_cases hi : i = c
    · subst hi
      rw [videosAt_set_self _ _ _ hlt] at hv
      rcases Finset.mem_insert.mp hv with hveq | hvold
      · subst hveq
        rw [videosAt_set_ne _ _ _ _ hij]
        exact habs j
      · rw [videosAt_set_ne _ _ _ _ hij]
        exact noOverlap_not_mem hok.2 hij hvold
    · rw [videosAt_set_ne _ _ _ _ (fun he => hi he.symm)] at hv
      by_cases hj : j = c
      · subst hj
        rw [videosAt_set_self _ _ _ hlt]
        intro hmem
        rcases Finset.mem_insert.mp hmem with hveq | hvold
        · exact habs i (hveq ▸ hv)
        · exact noOverlap_not_mem hok.2 hij hv hvold
      · rw [videosAt_set_ne _ _ _ _ (fun he => hj he.symm)]
        exact noOverlap_not_mem hok.2 hij hv

theorem reinsertFF_ok (video_sizes : List Int) (X : Int)
    (_hs : ∀ s ∈ video_sizes, 0 ≤ s) (origin vid : Nat) :
    ∀ (perm : List Nat) (sol : List Cache),
      SolutionOk video_sizes X sol → (∀ j, vid ∉ videosAt sol j) →
      SolutionOk video_sizes X
        (reinsertFF origin vid (video_sizes.getD vid 0) perm sol) := by
  intro perm
  induction perm with
  | nil => intro sol hok _; exact hok
  | cons c rest ih =>
    intro sol hok habs
    show SolutionOk video_sizes X
      (if c ≠ origin ∧ video_sizes.getD vid 0 ≤ remAt sol c then
        sol.set c ⟨insert vid (videosAt sol c), remAt sol c - video_sizes.getD vid 0⟩
      else reinsertFF origin vid (video_sizes.getD vid 0) rest sol)
    by_cases hcond : c ≠ origin ∧ video_sizes.getD vid 0 ≤ remAt sol c
    · rw [if_pos hcond]
      exact insertion_ok video_sizes X sol hok c vid habs hcond.2
    · rw [if_neg hcond]
      exact ih sol hok habs

theorem perturb_step_ok (video_sizes : List Int) (X : Int) (sol : List Cache)
    (hs : ∀ s ∈ video_sizes, 0 ≤ s) (hok : SolutionOk video_sizes X sol)
    (ch : PerturbChoice) :
    SolutionOk video_sizes X (perturb_step video_sizes sol ch) := by
  unfold perturb_step
  by_cases hempty : videosAt sol ch.cacheId = ∅
  · rw [if_pos hempty]
    exact hok
  · rw [if_neg hempty]
    have hvid : pickFrom (videosAt sol ch.cacheId) ch.vidIdx ∈ videosAt sol ch.cacheId :=
      pickFrom_mem _ _ hempty
    have hrem := removal_ok video_sizes X sol hs hok ch.cacheId _ hvid
    exact reinsertFF_ok video_sizes X hs ch.cacheId _ ch.perm _ hrem.1 hrem.2

theorem swap_ok (video_sizes : List Int) (X : Int) (sol : List Cache)
    (hok : SolutionOk video_sizes X sol) (c1 c2 : Nat) (hne : c1 ≠ c2)
    (v1 v2 : Nat) (hv1 : v1 ∈ videosAt sol c1) (hv2 : v2 ∈ videosAt sol c2)
    (hcap1 : video_sizes.getD v2 0 ≤ remAt sol c1 + video_sizes.getD v1 0)
    (hcap2 : video_sizes.getD v1 0 ≤ remAt sol c2 + video_sizes.getD v2 0) :
    SolutionOk video_sizes X
      ((sol.set c1 ⟨insert v2 ((videosAt sol c1).erase v1),
          remAt sol c1 + (video_sizes.getD v1 0 - video_sizes.getD v2 0)⟩).set c2
        ⟨insert v1 ((videosAt sol c2).erase v2),
          remAt sol c2 - (video_sizes.getD v1 0 - video_sizes.getD v2 0)⟩) := by
  have hlt1 : c1 < sol.length :=
    videosAt_nonempty_lt _ _ (fun he => by rw [he] at hv1; simp at hv1)
  have hlt2 : c2 < sol.length :=
    videosAt_nonempty_lt _ _ (fun he => by rw [he] at hv2; simp at hv2)
  have hne12 : v1 ≠ v2 := by
    intro he
    exact noOverlap_not_mem hok.2 hne hv1 (he ▸ hv2)
  have hv1n2 : v1 ∉ videosAt sol c2 := noOverlap_not_mem hok.2 hne hv1
  have hv2n1 : v2 ∉ videosAt sol c1 :=
    noOverlap_not_mem hok.2 (fun he => hne he.symm) hv2
  have hco1 := cacheOk_at video_sizes X sol hok.1 c1 hlt1
  have hco2 := cacheOk_at video_sizes X sol hok.1 c2 hlt2
  have he1 : (∑ v ∈ (videosAt sol c1).erase v1, video_sizes.getD v 0)
      + video_sizes.getD v1 0 = ∑ v ∈ videosAt sol c1, video_sizes.getD v 0 :=
    Finset.sum_erase_add _ _ hv1
  have he2 : (∑ v ∈ (videosAt sol c2).erase v2, video_sizes.getD v 0)
      + video_sizes.getD v2 0 = ∑ v ∈ videosAt sol c2, video_sizes.getD v 0 :=
    Finset.sum_erase_add _ _ hv2
  have hins1 : (∑ v ∈ insert v2 ((videosAt sol c1).erase v1), video_sizes.getD v 0)
      = video_sizes.getD v2 0 + ∑ v ∈ (videosAt sol c1).erase v1, video_sizes.getD v 0 :=
    Finset.sum_insert (fun hmem => hv2n1 (Finset.mem_of_mem_erase hmem))
  have hins2 : (∑ v ∈ insert v1 ((videosAt sol c2).erase v2), video_sizes.getD v 0)
      = video_sizes.getD v1 0 + ∑ v ∈ (videosAt sol c2).erase v2, video_sizes.getD v 0 :=
    Finset.sum_insert (fun hmem => hv1n2 (Finset.mem_of_mem_erase hmem))
  have hview : ∀ (K1 K2 : Cache) (k : Nat),
      videosAt ((sol.set c1 K1).set c2 K2) k
        = if k = c2 then K2.videos else if k = c1 then K1.videos
          else videosAt sol k := by
    intro K1 K2 k
    by_cases hk2 : k = c2
    · subst hk2
      rw [if_pos rfl, videosAt_set_self]
      rw [List.length_set]
      exact hlt2
    · rw [if_neg hk2, videosAt_set_ne _ _ _ _ (fun he => hk2 he.symm)]
      by_cases hk1 : k = c1
      · subst hk1
        rw [if_pos rfl, videosAt_set_self _ _ _ hlt1]
      · rw [if_neg hk1, videosAt_set_ne _ _ _ _ (fun he => hk1 he.symm)]
  constructor
  · intro k hk
    rcases mem_of_mem_set _ _ _ _ hk with hknew | hk1
    · rw [hknew]
      exact cacheOk_mk _ _ _ _ (by omega) (by omega) (by omega)
    rcases mem_of_mem_set _ _ _ _ hk1 with hknew | hkold
    · rw [hknew]
      exact cacheOk_mk _ _ _ _ (by omega) (by omega) (by omega)
    · exact hok.1 _ hkold
  · apply noOverlap_of_forall
    intro i j hij v hv
    rw [hview] at hv
    rw [hview]
    by_cases hic2 : i = c2
    · rw [if_pos hic2] at hv
      have hvB2 : v ∈ insert v1 ((videosAt sol c2).erase v2) := hv
      have hjc2 : j ≠ c2 := fun he => hij (hic2.trans he.symm)
      rw [if_neg hjc2]
      by_cases hjc1 : j = c1
      · rw [if_pos hjc1]
        intro hmem
        have hmB1 : v ∈ insert v2 ((videosAt sol c1).erase v1) := hmem
        rcases Finset.mem_insert.mp hvB2 with h | h
        · subst h
          rcases Finset.mem_insert.mp hmB1 with g | g
          · exact hne12 g
          · exact (Finset.mem_erase.mp g).1 rfl
        · rcases Finset.mem_insert.mp hmB1 with g | g
          · subst g
            exact (Finset.mem_erase.mp h).1 rfl
          · exact noOverlap_not_mem hok.2 (fun he => hne he.symm)
              (Finset.mem_of_mem_erase h) (Finset.mem_of_mem_erase g)
      · rw [if_neg hjc1]
        rcases Finset.mem_insert.mp hvB2 with h | h
        · subst h
          exact noOverlap_not_mem hok.2 (fun he => hjc1 he.symm) hv1
        · exact noOverlap_not_mem hok.2 (fun he => hjc2 he.symm)
            (Finset.mem_of_mem_erase h)
    · rw [if_neg hic2] at hv
      by_cases hic1 : i = c1
      · rw [if_pos hic1] at hv
        have hvB1 : v ∈ insert v2 ((videosAt sol c1).erase v1) := hv
        by_cases hjc2 : j = c2
        · rw [if_pos hjc2]
          intro hmem
          have hmB2 : v ∈ insert v1 ((videosAt sol c2).erase v2) := hmem
          rcases Finset.mem_insert.mp hvB1 with h | h
          · subst h
            rcases Finset.mem_insert.mp hmB2 with g | g
            · exact hne12 g.symm
            · exact (Finset.mem_erase.mp g).1 rfl
          · rcases Finset.mem_insert.mp hmB2 with g | g
            · subst g
              exact (Finset.mem_erase.mp h).1 rfl
            · exact noOverlap_not_mem hok.2 hne
                (Finset.mem_of_mem_erase h) (Finset.mem_of_mem_erase g)
        · have hjc1 : j ≠ c1 := fun he => hij (hic1.trans he.symm)
          rw [if_neg hjc2, if_neg hjc1]
          rcases Finset.mem_insert.mp hvB1 with h | h
          · subst h
            exact noOverlap_not_mem hok.2 (fun he => hjc2 he.symm) hv2
          · exact noOverlap_not_mem hok.2 (fun he => hjc1 he.symm)
              (Finset.mem_of_mem_erase h)
      · rw [if_neg hic1] at hv
        by_cases hjc2 : j = c2
        · rw [if_pos hjc2]
          intro hmem
          have hmB2 : v ∈ insert v1 ((videosAt sol c2).erase v2) := hmem
          rcases Finset.mem_insert.mp hmB2 with g | g
          · subst g
            exact noOverlap_not_mem hok.2 (fun he => hic1 he.symm) hv1 hv
          · exact noOverlap_not_mem hok.2 hic2 hv (Finset.mem_of_mem_erase g)
        · rw [if_neg hjc2]
          by_cases hjc1 : j = c1
          · rw [if_pos hjc1]
            intro hmem
            have hmB1 : v ∈ insert v2 ((videosAt sol c1).erase v1) := hmem
            rcases Finset.mem_insert.mp hmB1 with g | g
            · subst g
              exact noOverlap_not_mem hok.2 (fun he => hic2 he.symm) hv2 hv
            · exact noOverlap_not_mem hok.2 hic1 hv (Finset.mem_of_mem_erase g)
          · rw [if_neg hjc1]
            exact noOverlap_not_mem hok.2 hij hv

theorem generate_neighbor_ok (video_sizes : List Int) (X : Int) (sol : List Cache)
    (hok : SolutionOk video_sizes X sol) (ch : NeighborChoice) :
    SolutionOk video_sizes X (generate_neighbor video_sizes sol ch) := by
  unfold generate_neighbor
  by_cases hempty : videosAt sol ch.c1 = ∅ ∨ videosAt sol ch.c2 = ∅
  · rw [if_pos hempty]
    exact hok
  · rw [if_neg hempty]
    push_neg at hempty
    have hv1 : pickFrom (videosAt sol ch.c1) ch.i1 ∈ videosAt sol ch.c1 :=
      pickFrom_mem _ _ hempty.1
    have hv2 : pickFrom (videosAt sol ch.c2) ch.i2 ∈ videosAt sol ch.c2 :=
      pickFrom_mem _ _ hempty.2
    show SolutionOk video_sizes X
      (if video_sizes.getD (pickFrom (videosAt sol ch.c2) ch.i2) 0
            ≤ remAt sol ch.c1 + video_sizes.getD (pickFrom (videosAt sol ch.c1) ch.i1) 0 ∧
          video_sizes.getD (pickFrom (videosAt sol ch.c1) ch.i1) 0
            ≤ remAt sol ch.c2 + video_sizes.getD (pickFrom (videosAt sol ch.c2) ch.i2) 0 then
        (sol.set ch.c1
          ⟨insert (pickFrom (videosAt sol ch.c2) ch.i2)
              ((videosAt sol ch.c1).erase (pickFrom (videosAt sol ch.c1) ch.i1)),
            remAt sol ch.c1 + (video_sizes.getD (pickFrom (videosAt sol ch.c1) ch.i1) 0
              - video_sizes.getD (pickFrom (videosAt sol ch.c2) ch.i2) 0)⟩).set ch.c2
          ⟨insert (pickFrom (videosAt sol ch.c1) ch.i1)
              ((videosAt sol ch.c2).erase (pickFrom (videosAt sol ch.c2) ch.i2)),
            remAt sol ch.c2 - (video_sizes.getD (pickFrom (videosAt sol ch.c1) ch.i1) 0
              - video_sizes.getD (pickFrom (videosAt sol ch.c2) ch.i2) 0)⟩
      else sol)
    by_cases hcap : video_sizes.getD (pickFrom (videosAt sol ch.c2) ch.i2) 0
          ≤ remAt sol ch.c1 + video_sizes.getD (pickFrom (videosAt sol ch.c1) ch.i1) 0 ∧
        video_sizes.getD (pickFrom (videosAt sol ch.c1) ch.i1) 0
          ≤ remAt sol ch.c2 + video_sizes.getD (pickFrom (videosAt sol ch.c2) ch.i2) 0
    · rw [if_pos hcap]
      exact swap_ok video_sizes X sol hok ch.c1 ch.c2 ch.ne _ _ hv1 hv2 hcap.1 hcap.2
    · rw [if_neg hcap]
      exact hok

end MutationLemmas

section MutationClaims

/-- C2: on non-negative video sizes, both mutation operators of
`main.py` preserve the feasibility invariants — per-cache assigned sizes
within the capacity `X`, consistent non-negative `remaining_capacity`
bookkeeping, and no video stored in two caches — for every solution
satisfying them and every sequence of random choices. -/
theorem c2_mutations_preserve_invariants (video_sizes : List Int) (X : Int)
    (sol : List Cache)
    (hs : ∀ s ∈ video_sizes, 0 ≤ s)
    (hok : SolutionOk video_sizes X sol) :
    (∀ choices, SolutionOk video_sizes X (perturb_solution video_sizes sol choices)) ∧
    (∀ ch, SolutionOk video_sizes X (generate_neighbor video_sizes sol ch)) := by
  constructor
  · have main : ∀ (choices : List PerturbChoice) (s : List Cache),
        SolutionOk video_sizes X s →
        SolutionOk video_sizes X (perturb_solution video_sizes s choices) := by
      intro choices
      induction choices with
      | nil => intro s h; exact h
      | cons ch rest ih =>
        intro s h
        exact ih _ (perturb_step_ok video_sizes X s hs h ch)
    intro choices
    exact main choices sol hok
  · intro ch
    exact generate_neighbor_ok video_sizes X sol hok ch

/-- C2, witness: the invariants survive a concrete perturbation and a
concrete swap on a concrete feasible solution. -/
theorem c2_mutations_preserve_invariants_witness :
    SolutionOk [10, 5] 100
      (perturb_solution [10, 5] [⟨{0}, 90⟩, ⟨{1}, 95⟩] [⟨0, 0, [1]⟩]) ∧
    SolutionOk [10, 5] 100
      (generate_neighbor [10, 5] [⟨{0}, 90⟩, ⟨{1}, 95⟩] ⟨0, 1, Nat.zero_ne_one, 0, 0⟩) :=
  ⟨(c2_mutations_preserve_invariants [10, 5] 100 [⟨{0}, 90⟩, ⟨{1}, 95⟩]
      (by decide) (by decide)).1 [⟨0, 0, [1]⟩],
   (c2_mutations_preserve_invariants [10, 5] 100 [⟨{0}, 90⟩, ⟨{1}, 95⟩]
      (by decide) (by decide)).2 ⟨0, 1, Nat.zero_ne_one, 0, 0⟩⟩

end MutationClaims

/-! ## Construction heuristics and the iterated-local-search loop

`basic_cache_placement` is the smallest-first first-fit of `main.py`;
`operator_1` and `operator_2` are the impact-density first-fit and the
demand-weighted best-fit of `main_2_otherOperators.py`;
`iterated_local_search` is the loop of `main_2_otherOperators.py`.
`video_request_counts` (a `defaultdict(int)`) is passed as a total
function on video ids.  The float sort key
`video_request_counts[v] / video_sizes[v]` is modelled exactly over `ℚ`. -/

/-- Sort key of `operator_1`/`operator_2`:
`video_request_counts[v] / video_sizes[v] if video_sizes[v] > 0 else 0`. -/
def densityKey (counts : Nat → Int) (video_sizes : List Int) (v : Nat) : ℚ :=
  if 0 < video_sizes.getD v 0 then
    (counts v : ℚ) / ((video_sizes.getD v 0 : Int) : ℚ)
  else 0

/-- Video order of `operator_1`/`operator_2`:
`sorted(range(len(video_sizes)), key=density, reverse=True)` (stable). -/
def densityOrder (counts : Nat → Int) (video_sizes : List Int) : List Nat :=
  sortBy (fun y x => densityKey counts video_sizes y < densityKey counts video_sizes x)
    (List.range video_sizes.length)

/-- First-fit over a cache order: place the video into the first cache
with enough remaining capacity, `break`, or leave it unassigned. -/
def tryPlaceFF (vid : Nat) (sz : Int) : List Nat → List Cache → List Cache
  | [], sol => sol
  | c :: rest, sol =>
    if sz ≤ remAt sol c then
      sol.set c ⟨insert vid (videosAt sol c), remAt sol c - sz⟩
    else tryPlaceFF vid sz rest sol

/-- `basic_cache_placement` of `main.py`: videos sorted by size
ascending (stable), first-fit over caches in id order; `none` models an
`IndexError` on `video_sizes[vid]`.  The `requests`/`endpoints`
parameters of the source are unused there and omitted here. -/
def basic_cache_placement (video_sizes : List Int) (C : Nat) (X : Int) :
    Option (List Cache) :=
  (sortBy (fun y x => video_sizes.getD x 0 < video_sizes.getD y 0)
      (List.range video_sizes.length)).foldlM
    (fun sol vid =>
      (video_sizes[vid]?).map (fun sz => tryPlaceFF vid sz (List.range C) sol))
    (List.replicate C ⟨∅, X⟩)

/-- `operator_1` of `main_2_otherOperators.py`: impact-density order,
first-fit over caches in id order.  The unused `cache_servers` first
parameter of the source (called with `None`) is omitted. -/
def operator_1 (video_sizes : List Int) (counts : Nat → Int) (X : Int) (C : Nat) :
    Option (List Cache) :=
  (densityOrder counts video_sizes).foldlM
    (fun sol vid =>
      (video_sizes[vid]?).map (fun sz => tryPlaceFF vid sz (List.range C) sol))
    (List.replicate C ⟨∅, X⟩)

/-- Weight-dict update `cache_weights[cid] += reqs * gain` on an
insertion-ordered association list. -/
def bumpWeight (l : List (Nat × Int)) (c : Nat) (w : Int) : List (Nat × Int) :=
  match l with
  | [] => [(c, w)]
  | p :: rest => if p.1 = c then (p.1, p.2 + w) :: rest else p :: bumpWeight rest c w

/-- Per-video weight pass of `operator_2`: for every request of this
video, add `reqs * gain` for every reachable cache with positive gain;
`none` models the `IndexError` on `endpoints[ep_id]`. -/
def videoWeights (vid : Nat) (requests : List Request) (endpoints : List Endpoint) :
    Option (List (Nat × Int)) :=
  requests.foldlM
    (fun (w : List (Nat × Int)) (r : Request) =>
      if r.1 = vid then
        (endpoints[r.2.1]?).map (fun ep =>
          ep.cacheLatencies.foldl (fun w2 p =>
            if 0 < ep.dcLatency - p.2 then
              bumpWeight w2 p.1 (r.2.2 * (ep.dcLatency - p.2))
            else w2) w)
      else some w)
    []

/-- Placement loop of `operator_2` over the weight-sorted caches;
`none` models the `IndexError` on `new_cache_servers[cache_id]`. -/
def tryPlaceWeighted (vid : Nat) (sz : Int) :
    List (Nat × Int) → List Cache → Option (List Cache)
  | [], sol => some sol
  | p :: rest, sol =>
    match sol[p.1]? with
    | none => none
    | some c =>
      if sz ≤ c.remaining then
        some (sol.set p.1 ⟨insert vid c.videos, c.remaining - sz⟩)
      else tryPlaceWeighted vid sz rest sol

/-- `operator_2` of `main_2_otherOperators.py`: impact-density order;
per video, caches sorted by descending accumulated weight
(`key=lambda x: -x[1]`, stable), then first-fit. -/
def operator_2 (requests : List Request) (endpoints : List Endpoint)
    (video_sizes : List Int) (counts : Nat → Int) (X : Int) (C : Nat) :
    Option (List Cache) :=
  (densityOrder counts video_sizes).foldlM
    (fun sol vid => do
      let w ← videoWeights vid requests endpoints
      let sortedCaches := sortBy (fun y x => y.2 < x.2) w
      match video_sizes[vid]? with
      | none => none
      | some sz => tryPlaceWeighted vid sz sortedCaches sol)
    (List.replicate C ⟨∅, X⟩)

/-- Seeding of `iterated_local_search`: `operator_1` plus its score. -/
def ils_seed (requests : List Request) (endpoints : List Endpoint)
    (video_sizes : List Int) (counts : Nat → Int) (X : Int) (C : Nat) :
    Option (List Cache × Int) := do
  let sol ← operator_1 video_sizes counts X C
  let sc ← calculate_score_main2 requests endpoints sol
  pure (sol, sc)

/-- One loop iteration of `iterated_local_search`: generate the
candidate with `operator_2`, score it, and replace the incumbent only on
a strictly larger score. -/
def ils_step (requests : List Request) (endpoints : List Endpoint)
    (video_sizes : List Int) (counts : Nat → Int) (X : Int) (C : Nat)
    (st : List Cache × Int) : Option (List Cache × Int) := do
  let cand ← operator_2 requests endpoints video_sizes counts X C
  let cs ← calculate_score_main2 requests endpoints cand
  pure (if st.2 < cs then (cand, cs) else st)

/-- State of `iterated_local_search` after `n` loop iterations. -/
def ils_after (requests : List Request) (endpoints : List Endpoint)
    (video_sizes : List Int) (counts : Nat → Int) (X : Int) (C : Nat) :
    Nat → Option (List Cache × Int)
  | 0 => ils_seed requests endpoints video_sizes counts X C
  | n + 1 => (ils_after requests endpoints video_sizes counts X C n).bind
      (ils_step requests endpoints video_sizes counts X C)

/-- `iterated_local_search` of `main_2_otherOperators.py` with an
iteration budget (`max_iterations=10` at the call site). -/
def iterated_local_search (requests : List Request) (endpoints : List Endpoint)
    (video_sizes : List Int) (counts : Nat → Int) (X : Int) (C : Nat)
    (max_iterations : Nat) : Option (List Cache × Int) :=
  ils_after requests endpoints video_sizes counts X C max_iterations

section IlsLemmas

theorem ils_step_cases (requests : List Request) (endpoints : List Endpoint)
    (video_sizes : List Int) (counts : Nat → Int) (X : Int) (C : Nat)
    (st st' : List Cache × Int)
    (h : ils_step requests endpoints video_sizes counts X C st = some st') :
    st' = st ∨ (st.2 < st'.2 ∧
      operator_2 requests endpoints video_sizes counts X C = some st'.1 ∧
      calculate_score_main2 requests endpoints st'.1 = some st'.2) := by
  simp only [ils_step, Option.bind_eq_bind, Option.bind_eq_some] at h
  rcases h with ⟨cand, hcand, cs, hcs, hpure⟩
  have hif : (if st.2 < cs then (cand, cs) else st) = st' := by simpa using hpure
  by_cases hlt : st.2 < cs
  · rw [if_pos hlt] at hif
    right
    rw [← hif]
    exact ⟨hlt, hcand, hcs⟩
  · rw [if_neg hlt] at hif
    exact Or.inl hif.symm

theorem reinsertFF_mem (origin vid : Nat) (sz : Int) :
    ∀ (perm : List Nat) (sol : List Cache) (i v : Nat),
      v ∈ videosAt (reinsertFF origin vid sz perm sol) i →
      v = vid ∨ ∃ j, v ∈ videosAt sol j := by
  intro perm
  induction perm with
  | nil => intro sol i v h; exact Or.inr ⟨i, h⟩
  | cons c rest ih =>
    intro sol i v h
    rw [show reinsertFF origin vid sz (c :: rest) sol
        = if c ≠ origin ∧ sz ≤ remAt sol c then
            sol.set c ⟨insert vid (videosAt sol c), remAt sol c - sz⟩
          else reinsertFF origin vid sz rest sol from rfl] at h
    by_cases hcond : c ≠ origin ∧ sz ≤ remAt sol c
    · rw [if_pos hcond] at h
      by_cases hlt : c < sol.length
      · by_cases hic : i = c
        · rw [hic, videosAt_set_self _ _ _ hlt] at h
          rcases Finset.mem_insert.mp h with he | he
          · exact Or.inl he
          · exact Or.inr ⟨c, he⟩
        · rw [videosAt_set_ne _ _ _ _ (fun he => hic he.symm)] at h
          exact Or.inr ⟨i, h⟩
      · rw [set_oob _ _ _ (le_of_not_lt hlt)] at h
        exact Or.inr ⟨i, h⟩
    · rw [if_neg hcond] at h
      exact ih sol i v h

theorem perturb_step_mem (video_sizes : List Int) (sol : List Cache)
    (ch : PerturbChoice) (i v : Nat)
    (h : v ∈ videosAt (perturb_step video_sizes sol ch) i) :
    ∃ j, v ∈ videosAt sol j := by
  unfold perturb_step at h
  by_cases hempty : videosAt sol ch.cacheId = ∅
  · rw [if_pos hempty] at h
    exact ⟨i, h⟩
  · rw [if_neg hempty] at h
    have hlt : ch.cacheId < sol.length := videosAt_nonempty_lt _ _ hempty
    rcases reinsertFF_mem _ _ _ _ _ _ _ h with he | ⟨j, hj⟩
    · subst he
      exact ⟨ch.cacheId, pickFrom_mem _ _ hempty⟩
    · by_cases hjc : j = ch.cacheId
      · rw [hjc, videosAt_set_self _ _ _ hlt] at hj
        exact ⟨ch.cacheId, Finset.mem_of_mem_erase hj⟩
      · rw [videosAt_set_ne _ _ _ _ (fun he => hjc he.symm)] at hj
        exact ⟨j, hj⟩

theorem perturb_solution_mem (video_sizes : List Int) :
    ∀ (choices : List PerturbChoice) (sol : List Cache) (i v : Nat),
      v ∈ videosAt (perturb_solution video_sizes sol choices) i →
      ∃ j, v ∈ videosAt sol j := by
  intro choices
  induction choices with
  | nil => intro sol i v h; exact ⟨i, h⟩
  | cons ch rest ih =>
    intro sol i v h
    rcases ih (perturb_step video_sizes sol ch) i v h with ⟨j, hj⟩
    exact perturb_step_mem video_sizes sol ch j v hj

end IlsLemmas

section IlsClaims

/-- C3: the incumbent score of `iterated_local_search` never decreases
from one iteration to the next, and an iteration changes the incumbent
only to the freshly scored candidate when its score is strictly greater
— an equal or worse candidate leaves the state untouched. -/
theorem c3_ils_monotone (requests : List Request) (endpoints : List Endpoint)
    (video_sizes : List Int) (counts : Nat → Int) (X : Int) (C : Nat) :
    (∀ (n : Nat) (s s' : List Cache × Int),
      ils_after requests endpoints video_sizes counts X C n = some s →
      ils_after requests endpoints video_sizes counts X C (n + 1) = some s' →
      s.2 ≤ s'.2) ∧
    (∀ (st st' : List Cache × Int),
      ils_step requests endpoints video_sizes counts X C st = some st' →
      st' = st ∨ (st.2 < st'.2 ∧
        operator_2 requests endpoints video_sizes counts X C = some st'.1 ∧
        calculate_score_main2 requests endpoints st'.1 = some st'.2)) := by
  constructor
  · intro n s s' h1 h2
    rw [show ils_after requests endpoints video_sizes counts X C (n + 1)
        = (ils_after requests endpoints video_sizes counts X C n).bind
            (ils_step requests endpoints video_sizes counts X C) from rfl,
      h1, Option.some_bind] at h2
    rcases ils_step_cases requests endpoints video_sizes counts X C s s' h2 with
      he | ⟨hlt, _, _⟩
    · rw [he]
    · exact le_of_lt hlt
  · exact ils_step_cases requests endpoints video_sizes counts X C

/-- C3, witness: one concrete iteration improves the incumbent score
from 0 to 39600, consistent with monotonicity. -/
theorem c3_ils_monotone_witness : (0 : Int) ≤ 39600 :=
  (c3_ils_monotone [(0, 0, 6), (1, 1, 4)] [⟨100, []⟩, ⟨100, [(0, 1)]⟩] [6, 5]
      (fun v => if v = 0 then 6 else if v = 1 then 4 else 0) 10 1).1
    0 ([⟨{0}, 4⟩], 0) ([⟨{1}, 5⟩], 39600) (by decide) (by decide)

/-- C4, counterexample: at a concrete instance the incumbent after
seeding is `[⟨{0}, 4⟩]` while the loop's candidate (always `operator_2`'s
output) is `[⟨{1}, 5⟩]`, which stores video 1 — a video that no sequence
of `perturb_solution` choices and no `generate_neighbor` choice applied
to a copy of the incumbent can introduce.  So the candidate is produced
by neither of the two mutation operators from the incumbent. -/
theorem c4_counterexample :
    ils_seed [(0, 0, 6), (1, 1, 4)] [⟨100, []⟩, ⟨100, [(0, 1)]⟩] [6, 5]
        (fun v => if v = 0 then 6 else if v = 1 then 4 else 0) 10 1
      = some ([⟨{0}, 4⟩], 0) ∧
    operator_2 [(0, 0, 6), (1, 1, 4)] [⟨100, []⟩, ⟨100, [(0, 1)]⟩] [6, 5]
        (fun v => if v = 0 then 6 else if v = 1 then 4 else 0) 10 1
      = some [⟨{1}, 5⟩] ∧
    (∀ choices, perturb_solution [6, 5] [⟨{0}, 4⟩] choices ≠ [⟨{1}, 5⟩]) ∧
    (∀ ch, generate_neighbor [6, 5] [⟨{0}, 4⟩] ch ≠ [⟨{1}, 5⟩]) := by
  refine ⟨by decide, by decide, ?_, ?_⟩
  · intro choices heq
    have h1mem : (1 : Nat) ∈ videosAt (perturb_solution [6, 5] [⟨{0}, 4⟩] choices) 0 := by
      rw [heq]
      decide
    rcases perturb_solution_mem [6, 5] choices [⟨{0}, 4⟩] 0 1 h1mem with ⟨j, hj⟩
    cases j with
    | zero => revert hj; decide
    | succ m =>
      rw [videosAt_oob _ _ (by simp)] at hj
      simp at hj
  · intro ch heq
    have hres : generate_neighbor [6, 5] [⟨{0}, 4⟩] ch = [⟨{0}, 4⟩] := by
      unfold generate_neighbor
      have hvo : videosAt [⟨{0}, 4⟩] ch.c1 = ∅ ∨ videosAt [⟨{0}, 4⟩] ch.c2 = ∅ := by
        by_cases h1 : ch.c1 = 0
        · right
          have h2 : ch.c2 ≠ 0 := fun he => ch.ne (h1.trans he.symm)
          exact videosAt_oob _ _ (by simp; omega)
        · left
          exact videosAt_oob _ _ (by simp; omega)
      rw [if_pos hvo]
    rw [hres] at heq
    exact absurd heq (by decide)

/-- C4 (amended): each iteration's candidate is `operator_2`'s output,
computed from the instance alone; the incumbent enters the iteration
only through the strict-improvement acceptance test, so the candidate is
identical for every incumbent state. -/
theorem c4_candidate_is_operator2 (requests : List Request)
    (endpoints : List Endpoint) (video_sizes : List Int) (counts : Nat → Int)
    (X : Int) (C : Nat) (cand : List Cache) (cs : Int)
    (h3 : operator_2 requests endpoints video_sizes counts X C = some cand)
    (h4 : calculate_score_main2 requests endpoints cand = some cs) :
    ∀ st : List Cache × Int,
      ils_step requests endpoints video_sizes counts X C st
        = some (if st.2 < cs then (cand, cs) else st) := by
  intro st
  unfold ils_step
  rw [h3]
  simp only [Option.bind_eq_bind, Option.some_bind]
  rw [h4]
  simp only [Option.some_bind]
  rfl

/-- C4, witness: the amended statement at the concrete instance,
on the seeded incumbent. -/
theorem c4_candidate_is_operator2_witness :
    ils_step [(0, 0, 6), (1, 1, 4)] [⟨100, []⟩, ⟨100, [(0, 1)]⟩] [6, 5]
        (fun v => if v = 0 then 6 else if v = 1 then 4 else 0) 10 1 ([⟨{0}, 4⟩], 0)
      = some (if (0 : Int) < 39600 then ([⟨{1}, 5⟩], (39600 : Int)) else ([⟨{0}, 4⟩], 0)) :=
  c4_candidate_is_operator2 [(0, 0, 6), (1, 1, 4)] [⟨100, []⟩, ⟨100, [(0, 1)]⟩] [6, 5]
    (fun v => if v = 0 then 6 else if v = 1 then 4 else 0) 10 1 [⟨{1}, 5⟩] 39600
    (by decide) (by decide) ([⟨{0}, 4⟩], 0)

/-- C5: `iterated_local_search` is deterministic and independent of its
iteration budget — for any budget of at least one iteration it returns
`operator_2`'s assignment and score when that score strictly exceeds
`operator_1`'s, and `operator_1`'s otherwise. -/
theorem c5_ils_degenerate (requests : List Request) (endpoints : List Endpoint)
    (video_sizes : List Int) (counts : Nat → Int) (X : Int) (C : Nat)
    (a b : List Cache) (sa sb : Int) (n : Nat)
    (h1 : operator_1 video_sizes counts X C = some a)
    (h2 : calculate_score_main2 requests endpoints a = some sa)
    (h3 : operator_2 requests endpoints video_sizes counts X C = some b)
    (h4 : calculate_score_main2 requests endpoints b = some sb)
    (hn : 1 ≤ n) :
    iterated_local_search requests endpoints video_sizes counts X C n
      = some (if sa < sb then (b, sb) else (a, sa)) := by
  have hseed : ils_after requests endpoints video_sizes counts X C 0 = some (a, sa) := by
    show ils_seed requests endpoints video_sizes counts X C = some (a, sa)
    unfold ils_seed
    rw [h1]
    simp only [Option.bind_eq_bind, Option.some_bind]
    rw [h2]
    rfl
  have hstep : ∀ st : List Cache × Int,
      ils_step requests endpoints video_sizes counts X C st
        = some (if st.2 < sb then (b, sb) else st) := by
    intro st
    unfold ils_step
    rw [h3]
    simp only [Option.bind_eq_bind, Option.some_bind]
    rw [h4]
    rfl
  have hfix : ils_step requests endpoints video_sizes counts X C
      (if sa < sb then (b, sb) else (a, sa))
      = some (if sa < sb then (b, sb) else (a, sa)) := by
    by_cases hab : sa < sb
    · rw [if_pos hab, hstep]
      rw [if_neg (lt_irrefl sb)]
    · rw [if_neg hab, hstep]
      rw [if_neg hab]
  have hiter : ∀ m : Nat,
      ils_after requests endpoints video_sizes counts X C (m + 1)
        = some (if sa < sb then (b, sb) else (a, sa)) := by
    intro m
    induction m with
    | zero =>
      rw [show ils_after requests endpoints video_sizes counts X C 1
          = (ils_after requests endpoints video_sizes counts X C 0).bind
              (ils_step requests endpoints video_sizes counts X C) from rfl,
        hseed, Option.some_bind, hstep]
    | succ k ih =>
      rw [show ils_after requests endpoints video_sizes counts X C (k + 2)
          = (ils_after requests endpoints video_sizes counts X C (k + 1)).bind
              (ils_step requests endpoints video_sizes counts X C) from rfl,
        ih, Option.some_bind, hfix]
  obtain ⟨m, rfl⟩ : ∃ m, n = m + 1 := ⟨n - 1, by omega⟩
  exact hiter m

/-- C5, witness: at the concrete instance `operator_1` scores 0,
`operator_2` scores 39600, and a budget of 3 iterations returns
`operator_2`'s result. -/
theorem c5_ils_degenerate_witness :
    iterated_local_search [(0, 0, 6), (1, 1, 4)] [⟨100, []⟩, ⟨100, [(0, 1)]⟩] [6, 5]
        (fun v => if v = 0 then 6 else if v = 1 then 4 else 0) 10 1 3
      = some (if (0 : Int) < 39600 then ([⟨{1}, 5⟩], (39600 : Int)) else ([⟨{0}, 4⟩], 0)) :=
  c5_ils_degenerate [(0, 0, 6), (1, 1, 4)] [⟨100, []⟩, ⟨100, [(0, 1)]⟩] [6, 5]
    (fun v => if v = 0 then 6 else if v = 1 then 4 else 0) 10 1
    [⟨{0}, 4⟩] [⟨{1}, 5⟩] 0 39600 3
    (by decide) (by decide) (by decide) (by decide) (by decide)

end IlsClaims

/-! ## Feasibility validator (`main.py`) -/

/-- Diagnostic records printed by `validate_solution` in `main.py`. -/
inductive Diag where
  | negativeSize : Diag
  | negativeRemaining : Diag
  | overCapacity : Nat → Diag
  | multiCache : Nat → Diag
  | invalidId : Nat → Diag
deriving DecidableEq

/-- Check 2 of the validator: recompute each cache's total assigned
size against the capacity; `none` models the `IndexError` on
`video_sizes[vid]` for an out-of-range stored id. -/
def capacityDiags (cache_servers : List Cache) (video_sizes : List Int) (X : Int) :
    Option (List Diag) :=
  (List.range cache_servers.length).foldlM
    (fun (ds : List Diag) cid => do
      let t ← (finsetAsc (videosAt cache_servers cid)).foldlM
        (fun (acc : Int) v => (video_sizes[v]?).map (fun s => acc + s)) (0 : Int)
      pure (if X < t then ds ++ [Diag.overCapacity cid] else ds))
    []

/-- Check 3 of the validator: a running set of seen video ids flags any
id stored in more than one cache. -/
def multiDiags (cache_servers : List Cache) : List Diag :=
  (cache_servers.foldl
    (fun (st : Finset Nat × List Diag) c =>
      (finsetAsc c.videos).foldl
        (fun (st2 : Finset Nat × List Diag) v =>
          (insert v st2.1,
            if v ∈ st2.1 then st2.2 ++ [Diag.multiCache v] else st2.2)) st)
    (∅, [])).2

/-- Check 4 of the validator: stored ids must lie within `[0, V)`
(negative ids cannot arise for `Nat`-valued ids). -/
def rangeDiags (cache_servers : List Cache) (V : Nat) : List Diag :=
  cache_servers.foldl
    (fun ds c =>
      (finsetAsc c.videos).foldl
        (fun ds2 v => if V ≤ v then ds2 ++ [Diag.invalidId v] else ds2) ds)
    []

/-- Concatenation of the validator's diagnostics in check order, given
the capacity-check diagnostics `d3`. -/
def allDiags (cache_servers : List Cache) (video_sizes : List Int) (V : Nat)
    (d3 : List Diag) : List Diag :=
  (if video_sizes.any (fun s => s < 0) then [Diag.negativeSize] else [])
    ++ (if cache_servers.any (fun c => c.remaining < 0)
        then [Diag.negativeRemaining] else [])
    ++ d3 ++ multiDiags cache_servers ++ rangeDiags cache_servers V

/-- `validate_solution` of `main.py`: every check runs (each appending
its diagnostics) and the result is `true` only when none fired. -/
def validate_solution (cache_servers : List Cache) (video_sizes : List Int)
    (X : Int) (V : Nat) : Option (Bool × List Diag) :=
  (capacityDiags cache_servers video_sizes X).map
    (fun d3 => ((allDiags cache_servers video_sizes V d3).isEmpty,
                allDiags cache_servers video_sizes V d3))

section ValidatorClaims

theorem ff_fold_isSome (video_sizes : List Int) (C : Nat) :
    ∀ (l : List Nat), (∀ v ∈ l, v < video_sizes.length) → ∀ (init : List Cache),
      ((l.foldlM (fun sol vid => (video_sizes[vid]?).map
        (fun sz => tryPlaceFF vid sz (List.range C) sol)) init) :
          Option (List Cache)).isSome := by
  intro l
  induction l with
  | nil =>
    intro _ init
    rfl
  | cons v rest ih =>
    intro h init
    rw [List.foldlM_cons,
      getElem?_eq_getD video_sizes v 0 (h v (List.mem_cons_self _ _))]
    simp only [Option.map_some', Option.bind_eq_bind, Option.some_bind]
    exact ih (fun q hq => h q (List.mem_cons_of_mem _ hq)) _

/-- C9: an instance with a negative video size makes `validate_solution`
return `false` together with the negative-size diagnostic, while the
smallest-first first-fit (`basic_cache_placement`) and the
impact-density first-fit (`operator_1`) still run to completion and
return an assignment without raising. -/
theorem c9_negative_size (video_sizes : List Int) (X : Int) (V C : Nat)
    (cache_servers : List Cache) (counts : Nat → Int)
    (hneg : ∃ s ∈ video_sizes, s < 0)
    (r : Bool × List Diag)
    (hval : validate_solution cache_servers video_sizes X V = some r) :
    r.1 = false ∧ Diag.negativeSize ∈ r.2 ∧
    (basic_cache_placement video_sizes C X).isSome ∧
    (operator_1 video_sizes counts X C).isSome := by
  have hany : video_sizes.any (fun s => decide (s < 0)) = true := by
    rcases hneg with ⟨s, hs, hslt⟩
    exact List.any_eq_true.mpr ⟨s, hs, by simpa using hslt⟩
  rcases Option.map_eq_some'.mp hval with ⟨d3, _, hr⟩
  have hmem : Diag.negativeSize ∈ allDiags cache_servers video_sizes V d3 := by
    unfold allDiags
    rw [if_pos hany]
    simp
  have hfalse : (allDiags cache_servers video_sizes V d3).isEmpty = false := by
    rcases hd : allDiags cache_servers video_sizes V d3 with _ | ⟨a, l⟩
    · rw [hd] at hmem
      simp at hmem
    · rfl
  refine ⟨?_, ?_, ?_, ?_⟩
  · rw [← hr]
    exact hfalse
  · rw [← hr]
    exact hmem
  · apply ff_fold_isSome
    intro v hv
    exact List.mem_range.mp ((mem_sortBy _ _ v).mp hv)
  · apply ff_fold_isSome
    intro v hv
    exact List.mem_range.mp ((mem_sortBy _ _ v).mp hv)

/-- C9, witness: a concrete instance with video size -5. -/
theorem c9_negative_size_witness :
    (false, [Diag.negativeSize]).1 = false ∧
    Diag.negativeSize ∈ (false, [Diag.negativeSize]).2 ∧
    (basic_cache_placement [-5] 1 10).isSome ∧
    (operator_1 [-5] (fun v => v) 10 1).isSome :=
  c9_negative_size [-5] 10 1 1 [⟨∅, 10⟩] (fun v => v) (by decide)
    (false, [Diag.negativeSize]) (by decide)

end ValidatorClaims

/-! ## Multi-factor (enhanced) construction heuristic (`main.py`)

`preprocess_requests`, `find_optimal_cache` and `enhanced_cache_placement`.
The per-video statistics dict is an insertion-ordered association list;
the `endpoints` member set is an insertion-ordered id list.  The float
placement score is modelled exactly over `ℚ`.  Failures are explicit:
`IndexError` on out-of-range subscripts, and the `TypeError` raised when
the tie-breaking comparison evaluates `cache_servers[None]`. -/

/-- Per-video statistics of `preprocess_requests`. -/
structure VideoStats where
  totalDemand : Int
  endpoints : List Nat
  latencyPotential : Int
deriving DecidableEq

/-- Default statistics produced by the `defaultdict` factory. -/
def dStats : VideoStats := ⟨0, [], 0⟩

/-- `min(endpoint['cache_latencies'].values()) if ... else dc_latency`. -/
def minLatency (ep : Endpoint) : Int :=
  match ep.cacheLatencies with
  | [] => ep.dcLatency
  | p :: rest => rest.foldl (fun m q => min m q.2) p.2

/-- Set insertion `stats['endpoints'].add(endpoint_id)`, keeping first
insertion order. -/
def addEndpoint (l : List Nat) (e : Nat) : List Nat := if e ∈ l then l else l ++ [e]

/-- Update-or-insert on the per-video statistics dict. -/
def bumpStats (m : List (Nat × VideoStats)) (vid : Nat)
    (f : VideoStats → VideoStats) : List (Nat × VideoStats) :=
  match m with
  | [] => [(vid, f dStats)]
  | p :: rest => if p.1 = vid then (p.1, f p.2) :: rest else p :: bumpStats rest vid f

/-- `preprocess_requests` of `main.py`; `none` models the `IndexError`
on `endpoints[endpoint_id]`. -/
def preprocess_requests (requests : List Request) (endpoints : List Endpoint) :
    Option (List (Nat × VideoStats)) :=
  requests.foldlM
    (fun m (r : Request) =>
      (endpoints[r.2.1]?).map (fun ep =>
        bumpStats m r.1 (fun st =>
          ⟨st.totalDemand + r.2.2, addEndpoint st.endpoints r.2.1,
            st.latencyPotential + (ep.dcLatency - minLatency ep) * r.2.2⟩)))
    []

/-- `defaultdict` read `video_stats[v]`. -/
def statsOf (m : List (Nat × VideoStats)) (vid : Nat) : VideoStats :=
  match m with
  | [] => dStats
  | p :: rest => if p.1 = vid then p.2 else statsOf rest vid

/-- Placement score of `find_optimal_cache`:
`(data_center_latency - latency) * (total_demand / len(endpoints))`. -/
def focScore (stats : VideoStats) (dc lat : Int) : ℚ :=
  ((dc - lat : Int) : ℚ) * ((stats.totalDemand : ℚ) / (stats.endpoints.length : ℚ))

/-- Inner-loop body of `find_optimal_cache` for one
`(cache_id, latency)` item of the current endpoint's latency dict. -/
def focStep (video_size : Int) (stats : VideoStats) (cache_servers : List Cache)
    (dc : Int) (st : ℚ × Option Nat) (p : Nat × Int) :
    Except String (ℚ × Option Nat) :=
  match cache_servers[p.1]? with
  | none => Except.error "IndexError: cache_servers"
  | some cache =>
    if video_size ≤ cache.remaining then
      if st.1 < focScore stats dc p.2 then
        Except.ok (focScore stats dc p.2, some p.1)
      else if focScore stats dc p.2 = st.1 then
        match st.2 with
        | none => Except.error "TypeError: cache_servers[None]"
        | some bc =>
          match cache_servers[bc]? with
          | none => Except.error "IndexError: cache_servers"
          | some bcache =>
            if bcache.remaining < cache.remaining then
              Except.ok (focScore stats dc p.2, some p.1)
            else Except.ok st
      else Except.ok st
    else Except.ok st

/-- `find_optimal_cache` of `main.py`, with `best_score = -1` and
`best_cache = None` as initial state. -/
def find_optimal_cache (video_size : Int) (endpoints : List Endpoint)
    (stats : VideoStats) (cache_servers : List Cache) :
    Except String (Option Nat) :=
  ((stats.endpoints.foldlM
    (fun (st : ℚ × Option Nat) (eid : Nat) =>
      match endpoints[eid]? with
      | none => (Except.error "IndexError: endpoints" : Except String (ℚ × Option Nat))
      | some ep => ep.cacheLatencies.foldlM
          (focStep video_size stats cache_servers ep.dcLatency) st)
    ((-1 : ℚ), (none : Option Nat))) : Except String (ℚ × Option Nat)).map
    (fun st => st.2)

/-- Per-video step of `enhanced_cache_placement`: place into the chosen
cache, or leave the video unassigned when no cache was chosen. -/
def enhanced_place_video (endpoints : List Endpoint) (video_sizes : List Int)
    (stats : VideoStats) (sol : List Cache) (vid : Nat) :
    Except String (List Cache) :=
  match find_optimal_cache (video_sizes.getD vid 0) endpoints stats sol with
  | Except.error e => Except.error e
  | Except.ok none => Except.ok sol
  | Except.ok (some bc) =>
    Except.ok (sol.set bc ⟨insert vid (videosAt sol bc),
      remAt sol bc - video_sizes.getD vid 0⟩)

/-- Lexicographic order on the sort-key triples of
`enhanced_cache_placement`. -/
def lex3Lt (a b : Int × Int × Int) : Bool :=
  a.1 < b.1 ∨ (a.1 = b.1 ∧ (a.2.1 < b.2.1 ∨ (a.2.1 = b.2.1 ∧ a.2.2 < b.2.2)))

/-- Sort key `(-total_demand, -latency_potential, size)` per video. -/
def enhKey (m : List (Nat × VideoStats)) (video_sizes : List Int) (v : Nat) :
    Int × Int × Int :=
  (-(statsOf m v).totalDemand, -(statsOf m v).latencyPotential,
    video_sizes.getD v 0)

/-- `enhanced_cache_placement` of `main.py`. -/
def enhanced_cache_placement (requests : List Request) (endpoints : List Endpoint)
    (video_sizes : List Int) (C : Nat) (X : Int) : Except String (List Cache) :=
  match preprocess_requests requests endpoints with
  | none => Except.error "IndexError: endpoints"
  | some m =>
    (sortBy (fun y x => lex3Lt (enhKey m video_sizes x) (enhKey m video_sizes y))
        (List.range video_sizes.length)).foldlM
      (fun sol vid => enhanced_place_video endpoints video_sizes (statsOf m vid) sol vid)
      (List.replicate C ⟨∅, X⟩)

/-- Flattened candidate entries `(endpoint id, cache id, latency)`
scanned by `find_optimal_cache`, in scan order. -/
def focEntries (endpoints : List Endpoint) (stats : VideoStats) :
    List (Nat × Nat × Int) :=
  stats.endpoints.flatMap (fun eid =>
    (endpoints.getD eid dEndpoint).cacheLatencies.map (fun p => (eid, p.1, p.2)))

/-- Placement score of a candidate entry. -/
def entryScore (endpoints : List Endpoint) (stats : VideoStats)
    (e : Nat × Nat × Int) : ℚ :=
  focScore stats (endpoints.getD e.1 dEndpoint).dcLatency e.2.2

/-- Behavioural specification of `find_optimal_cache`'s result: `none`
only when every fitting candidate scores below the -1 sentinel, and
`some c` only for a fitting candidate of maximal score whose cache also
has maximal remaining capacity among the maximal-score candidates. -/
def FocSpec (endpoints : List Endpoint) (stats : VideoStats)
    (cache_servers : List Cache) (video_size : Int) (res : Option Nat) : Prop :=
  match res with
  | none => ∀ e ∈ focEntries endpoints stats,
      video_size ≤ remAt cache_servers e.2.1 →
      entryScore endpoints stats e < -1
  | some c =>
      ∃ e ∈ focEntries endpoints stats, e.2.1 = c ∧
        video_size ≤ remAt cache_servers e.2.1 ∧
        (-1 : ℚ) < entryScore endpoints stats e ∧
        (∀ e2 ∈ focEntries endpoints stats,
          video_size ≤ remAt cache_servers e2.2.1 →
          entryScore endpoints stats e2 ≤ entryScore endpoints stats e) ∧
        (∀ e2 ∈ focEntries endpoints stats,
          video_size ≤ remAt cache_servers e2.2.1 →
          entryScore endpoints stats e2 = entryScore endpoints stats e →
          remAt cache_servers e2.2.1 ≤ remAt cache_servers c)

/-- Loop invariant of `find_optimal_cache` over the processed entries. -/
def FocInv (endpoints : List Endpoint) (stats : VideoStats)
    (cache_servers : List Cache) (video_size : Int)
    (seen : List (Nat × Nat × Int)) (st : ℚ × Option Nat) : Prop :=
  (-1 : ℚ) ≤ st.1 ∧
  (st.2 = none → st.1 = -1 ∧ ∀ e ∈ seen,
    video_size ≤ remAt cache_servers e.2.1 →
    entryScore endpoints stats e < -1) ∧
  (∀ c, st.2 = some c →
    c < cache_servers.length ∧ (-1 : ℚ) < st.1 ∧
    (∃ e ∈ seen, e.2.1 = c ∧ video_size ≤ remAt cache_servers e.2.1 ∧
      entryScore endpoints stats e = st.1) ∧
    (∀ e ∈ seen, video_size ≤ remAt cache_servers e.2.1 →
      entryScore endpoints stats e ≤ st.1) ∧
    (∀ e ∈ seen, video_size ≤ remAt cache_servers e.2.1 →
      entryScore endpoints stats e = st.1 →
      remAt cache_servers e.2.1 ≤ remAt cache_servers c))

section FocLemmas

variable (endpoints : List Endpoint) (stats : VideoStats)
variable (cache_servers : List Cache) (video_size : Int)

theorem focInv_le {seen : List (Nat × Nat × Int)} {st : ℚ × Option Nat}
    (hinv : FocInv endpoints stats cache_servers video_size seen st) :
    ∀ e2 ∈ seen, video_size ≤ remAt cache_servers e2.2.1 →
      entryScore endpoints stats e2 ≤ st.1 := by
  intro e2 he2 hf
  rcases hst : st.2 with _ | c
  · have h1 := hinv.2.1 hst
    rw [h1.1]
    exact le_of_lt (h1.2 e2 he2 hf)
  · exact (hinv.2.2 c hst).2.2.2.1 e2 he2 hf

theorem focInv_keep {seen : List (Nat × Nat × Int)} {st : ℚ × Option Nat}
    (hinv : FocInv endpoints stats cache_servers video_size seen st)
    (e : Nat × Nat × Int)
    (hcase : video_size ≤ remAt cache_servers e.2.1 →
      entryScore endpoints stats e < st.1 ∨
      (entryScore endpoints stats e = st.1 ∧ ∃ c, st.2 = some c ∧
        remAt cache_servers e.2.1 ≤ remAt cache_servers c)) :
    FocInv endpoints stats cache_servers video_size (seen ++ [e]) st := by
  refine ⟨hinv.1, ?_, ?_⟩
  · intro hn
    have h1 := hinv.2.1 hn
    refine ⟨h1.1, ?_⟩
    intro e2 he2 hf
    rcases List.mem_append.mp he2 with hold | hnew
    · exact h1.2 e2 hold hf
    · have he : e2 = e := by simpa using hnew
      subst he
      rcases hcase hf with hlt | ⟨_, c, hc, _⟩
      · rw [← h1.1]
        exact hlt
      · rw [hn] at hc
        simp at hc
  · intro c hc
    have h2 := hinv.2.2 c hc
    refine ⟨h2.1, h2.2.1, ?_, ?_, ?_⟩
    · rcases h2.2.2.1 with ⟨w, hw, hrest⟩
      exact ⟨w, List.mem_append.mpr (Or.inl hw), hrest⟩
    · intro e2 he2 hf
      rcases List.mem_append.mp he2 with hold | hnew
      · exact h2.2.2.2.1 e2 hold hf
      · have he : e2 = e := by simpa using hnew
        subst he
        rcases hcase hf with hlt | ⟨heq, _⟩
        · exact le_of_lt hlt
        · exact le_of_eq heq
    · intro e2 he2 hf heq
      rcases List.mem_append.mp he2 with hold | hnew
      · exact h2.2.2.2.2 e2 hold hf heq
      · have he : e2 = e := by simpa using hnew
        subst he
        rcases hcase hf with hlt | ⟨_, c', hc', hle⟩
        · exact absurd heq (ne_of_lt hlt)
        · rw [hc] at hc'
          have hcc : c' = c := by simpa using hc'.symm
          rw [← hcc]
          exact hle

theorem focInv_update {seen : List (Nat × Nat × Int)} {st : ℚ × Option Nat}
    (_hinv : FocInv endpoints stats cache_servers video_size seen st)
    (e : Nat × Nat × Int)
    (hfeas : video_size ≤ remAt cache_servers e.2.1)
    (hclt : e.2.1 < cache_servers.length)
    (hgt : (-1 : ℚ) < entryScore endpoints stats e)
    (hmax : ∀ e2 ∈ seen, video_size ≤ remAt cache_servers e2.2.1 →
      entryScore endpoints stats e2 ≤ entryScore endpoints stats e)
    (hcap : ∀ e2 ∈ seen, video_size ≤ remAt cache_servers e2.2.1 →
      entryScore endpoints stats e2 = entryScore endpoints stats e →
      remAt cache_servers e2.2.1 ≤ remAt cache_servers e.2.1) :
    FocInv endpoints stats cache_servers video_size (seen ++ [e])
      (entryScore endpoints stats e, some e.2.1) := by
  refine ⟨le_of_lt hgt, ?_, ?_⟩
  · intro hn
    simp at hn
  · intro c hc
    have hcc : e.2.1 = c := by simpa using hc
    subst hcc
    refine ⟨hclt, hgt, ⟨e, List.mem_append.mpr (Or.inr (by simp)), rfl, hfeas, rfl⟩,
      ?_, ?_⟩
    · intro e2 he2 hf
      rcases List.mem_append.mp he2 with hold | hnew
      · exact hmax e2 hold hf
      · have he : e2 = e := by simpa using hnew
        rw [he]
    · intro e2 he2 hf heq
      rcases List.mem_append.mp he2 with hold | hnew
      · exact hcap e2 hold hf heq
      · have he : e2 = e := by simpa using hnew
        rw [he]

theorem focStep_inv (eid : Nat) (p : Nat × Int)
    (hcid : p.1 < cache_servers.length)
    (hno : video_size ≤ remAt cache_servers p.1 →
      entryScore endpoints stats (eid, p.1, p.2) ≠ -1)
    (seen : List (Nat × Nat × Int)) (st : ℚ × Option Nat)
    (hinv : FocInv endpoints stats cache_servers video_size seen st) :
    ∃ st2, focStep video_size stats cache_servers
        (endpoints.getD eid dEndpoint).dcLatency st p = Except.ok st2 ∧
      FocInv endpoints stats cache_servers video_size
        (seen ++ [(eid, p.1, p.2)]) st2 := by
  have hlookup : cache_servers[p.1]? = some (cache_servers.getD p.1 dCache) :=
    getElem?_eq_getD _ _ _ hcid
  have hrem : (cache_servers.getD p.1 dCache).remaining = remAt cache_servers p.1 := rfl
  have hsc : focScore stats (endpoints.getD eid dEndpoint).dcLatency p.2
      = entryScore endpoints stats (eid, p.1, p.2) := rfl
  unfold focStep
  rw [hlookup]
  dsimp only
  by_cases hfit : video_size ≤ (cache_servers.getD p.1 dCache).remaining
  case neg =>
    rw [if_neg hfit]
    refine ⟨st, rfl, focInv_keep endpoints stats cache_servers video_size hinv _ ?_⟩
    intro hf
    rw [← hrem] at hf
    exact absurd hf hfit
  rw [if_pos hfit]
  have hfeas : video_size ≤ remAt cache_servers p.1 := by rwa [hrem] at hfit
  by_cases hlt : st.1 < focScore stats (endpoints.getD eid dEndpoint).dcLatency p.2
  · rw [if_pos hlt]
    rw [hsc] at hlt
    refine ⟨_, rfl, ?_⟩
    rw [hsc]
    exact focInv_update endpoints stats cache_servers video_size hinv _ hfeas hcid
      (lt_of_le_of_lt hinv.1 hlt)
      (fun e2 he2 hf => le_of_lt (lt_of_le_of_lt
        (focInv_le endpoints stats cache_servers video_size hinv e2 he2 hf) hlt))
      (fun e2 he2 hf heq => absurd heq (ne_of_lt (lt_of_le_of_lt
        (focInv_le endpoints stats cache_servers video_size hinv e2 he2 hf) hlt)))
  rw [if_neg hlt]
  by_cases heq : focScore stats (endpoints.getD eid dEndpoint).dcLatency p.2 = st.1
  · rw [if_pos heq]
    rcases hst : st.2 with _ | bc
    · have h1 := hinv.2.1 hst
      rw [hsc] at heq
      exact absurd (heq.trans h1.1) (hno hfeas)
    · have h2 := hinv.2.2 bc hst
      have hbclook : cache_servers[bc]? = some (cache_servers.getD bc dCache) :=
        getElem?_eq_getD _ _ _ h2.1
      dsimp only
      rw [hbclook]
      dsimp only
      have hbcrem : (cache_servers.getD bc dCache).remaining
          = remAt cache_servers bc := rfl
      by_cases hcmp : (cache_servers.getD bc dCache).remaining
          < (cache_servers.getD p.1 dCache).remaining
      · rw [if_pos hcmp]
        rw [hrem, hbcrem] at hcmp
        rw [hsc] at heq
        refine ⟨_, rfl, ?_⟩
        rw [hsc]
        have hst1 : entryScore endpoints stats (eid, p.1, p.2) = st.1 := heq
        rw [hst1]
        have hupd := focInv_update endpoints stats cache_servers video_size hinv
          (eid, p.1, p.2) hfeas hcid (hst1 ▸ h2.2.1)
          (fun e2 he2 hf => hst1 ▸
            focInv_le endpoints stats cache_servers video_size hinv e2 he2 hf)
          (fun e2 he2 hf heqq => le_of_lt (lt_of_le_of_lt
            (h2.2.2.2.2 e2 he2 hf (by rw [heqq, hst1])) hcmp))
        rw [hst1] at hupd
        exact hupd
      · rw [if_neg hcmp]
        rw [hrem, hbcrem] at hcmp
        refine ⟨st, rfl, focInv_keep endpoints stats cache_servers video_size hinv _ ?_⟩
        intro _
        right
        exact ⟨hsc ▸ heq, bc, hst, le_of_not_lt hcmp⟩
  · rw [if_neg heq]
    have hlt2 : focScore stats (endpoints.getD eid dEndpoint).dcLatency p.2 < st.1 :=
      lt_of_le_of_ne (le_of_not_lt hlt) heq
    refine ⟨st, rfl, focInv_keep endpoints stats cache_servers video_size hinv _ ?_⟩
    intro _
    left
    exact hsc ▸ hlt2

theorem focFold_inner (eid : Nat) :
    ∀ (L : List (Nat × Int)) (seen : List (Nat × Nat × Int)) (st : ℚ × Option Nat),
      FocInv endpoints stats cache_servers video_size seen st →
      (∀ q ∈ L, q.1 < cache_servers.length) →
      (∀ q ∈ L, video_size ≤ remAt cache_servers q.1 →
        entryScore endpoints stats (eid, q.1, q.2) ≠ -1) →
      ∃ st2, ((L.foldlM (focStep video_size stats cache_servers
          (endpoints.getD eid dEndpoint).dcLatency) st) :
            Except String (ℚ × Option Nat)) = Except.ok st2 ∧
        FocInv endpoints stats cache_servers video_size
          (seen ++ L.map (fun q => (eid, q.1, q.2))) st2 := by
  intro L
  induction L with
  | nil =>
    intro seen st hinv _ _
    exact ⟨st, rfl, by simpa using hinv⟩
  | cons q rest ih =>
    intro seen st hinv hC hno
    rcases focStep_inv endpoints stats cache_servers video_size eid q
      (hC q (List.mem_cons_self _ _)) (hno q (List.mem_cons_self _ _)) seen st hinv
      with ⟨st1, hok, hinv1⟩
    rcases ih (seen ++ [(eid, q.1, q.2)]) st1 hinv1
      (fun x hx => hC x (List.mem_cons_of_mem _ hx))
      (fun x hx => hno x (List.mem_cons_of_mem _ hx)) with ⟨st2, hok2, hinv2⟩
    refine ⟨st2, ?_, ?_⟩
    · rw [List.foldlM_cons, hok]
      exact hok2
    · rw [List.map_cons]
      have hre : seen ++ (eid, q.1, q.2) :: rest.map (fun x => (eid, x.1, x.2))
          = (seen ++ [(eid, q.1, q.2)]) ++ rest.map (fun x => (eid, x.1, x.2)) := by
        simp
      rw [hre]
      exact hinv2

theorem focFold_outer :
    ∀ (es : List Nat) (seen : List (Nat × Nat × Int)) (st : ℚ × Option Nat),
      (∀ x ∈ es, x < endpoints.length) →
      (∀ x ∈ es, ∀ q ∈ (endpoints.getD x dEndpoint).cacheLatencies,
        q.1 < cache_servers.length) →
      (∀ x ∈ es, ∀ q ∈ (endpoints.getD x dEndpoint).cacheLatencies,
        video_size ≤ remAt cache_servers q.1 →
        entryScore endpoints stats (x, q.1, q.2) ≠ -1) →
      FocInv endpoints stats cache_servers video_size seen st →
      ∃ st2, ((es.foldlM
          (fun (st : ℚ × Option Nat) (eid : Nat) =>
            match endpoints[eid]? with
            | none =>
              (Except.error "IndexError: endpoints" : Except String (ℚ × Option Nat))
            | some ep => ep.cacheLatencies.foldlM
                (focStep video_size stats cache_servers ep.dcLatency) st)
          st) : Except String (ℚ × Option Nat)) = Except.ok st2 ∧
        FocInv endpoints stats cache_servers video_size
          (seen ++ es.flatMap (fun eid =>
            (endpoints.getD eid dEndpoint).cacheLatencies.map
              (fun q => (eid, q.1, q.2)))) st2 := by
  intro es
  induction es with
  | nil =>
    intro seen st _ _ _ hinv
    exact ⟨st, rfl, by simpa using hinv⟩
  | cons eid rest ih =>
    intro seen st hE hC hno hinv
    have hlook : endpoints[eid]? = some (endpoints.getD eid dEndpoint) :=
      getElem?_eq_getD _ _ _ (hE eid (List.mem_cons_self _ _))
    rcases focFold_inner endpoints stats cache_servers video_size eid
      (endpoints.getD eid dEndpoint).cacheLatencies seen st hinv
      (hC eid (List.mem_cons_self _ _)) (hno eid (List.mem_cons_self _ _))
      with ⟨st1, hok1, hinv1⟩
    rcases ih (seen ++ (endpoints.getD eid dEndpoint).cacheLatencies.map
        (fun q => (eid, q.1, q.2))) st1
      (fun x hx => hE x (List.mem_cons_of_mem _ hx))
      (fun x hx => hC x (List.mem_cons_of_mem _ hx))
      (fun x hx => hno x (List.mem_cons_of_mem _ hx)) hinv1 with ⟨st2, hok2, hinv2⟩
    refine ⟨st2, ?_, ?_⟩
    · rw [List.foldlM_cons, hlook]
      dsimp only
      rw [hok1]
      exact hok2
    · rw [List.flatMap_cons]
      have hre : seen ++ ((endpoints.getD eid dEndpoint).cacheLatencies.map
            (fun q => (eid, q.1, q.2))
          ++ rest.flatMap (fun x => (endpoints.getD x dEndpoint).cacheLatencies.map
            (fun q => (x, q.1, q.2))))
          = (seen ++ (endpoints.getD eid dEndpoint).cacheLatencies.map
            (fun q => (eid, q.1, q.2)))
          ++ rest.flatMap (fun x => (endpoints.getD x dEndpoint).cacheLatencies.map
            (fun q => (x, q.1, q.2))) := by
        rw [List.append_assoc]
      rw [hre]
      exact hinv2

end FocLemmas

section FocClaims

/-- C8: `find_optimal_cache` is not total — on a video requested by one
endpoint with total demand 1, where the single feasible reachable cache
has latency exactly one above the datacenter latency, the placement
score equals the `-1` sentinel while `best_cache` is still `None`, and
the tie-breaking comparison evaluates `cache_servers[None]`: the call
fails (a `TypeError`) instead of returning a cache id or `None`. -/
theorem c8_sentinel_crash :
    find_optimal_cache 1 [⟨10, [(0, 11)]⟩] ⟨1, [0], 0⟩ [⟨∅, 100⟩]
      = Except.error "TypeError: cache_servers[None]" := by
  rfl

/-- C7, counterexample: a video with demand 1 requested through one
endpoint whose only reachable cache fits the video but has latency 15
against datacenter latency 10: the candidate's placement score is -5,
which never beats the -1 sentinel, so `find_optimal_cache` returns
`None` although a feasible reachable candidate (necessarily of maximal
score) exists — the claim's "picks the cache with the maximum score"
fails. -/
theorem c7_counterexample :
    find_optimal_cache 1 [⟨10, [(0, 15)]⟩] ⟨1, [0], 0⟩ [⟨∅, 100⟩] = Except.ok none ∧
    (0, 0, 15) ∈ focEntries [⟨10, [(0, 15)]⟩] ⟨1, [0], 0⟩ ∧
    (1 : Int) ≤ remAt [⟨∅, 100⟩] 0 :=
  ⟨by rfl, by decide, by decide⟩

/-- C7 (amended): under in-range endpoint and cache references and with
no feasible candidate scoring exactly the `-1` sentinel,
`find_optimal_cache` succeeds; it returns a cache only if that cache is
reachable from a requesting endpoint, fits the video, and carries a
placement score that is maximal (and above the sentinel) among feasible
candidates, with ties broken by larger remaining capacity; it returns
`None` only when every feasible candidate scores below the sentinel,
and `enhanced_cache_placement` then leaves the video unassigned with no
fallback placement. -/
theorem c7_find_optimal_cache (video_size : Int) (endpoints : List Endpoint)
    (stats : VideoStats) (cache_servers : List Cache)
    (hE : ∀ eid ∈ stats.endpoints, eid < endpoints.length)
    (hC : ∀ e ∈ focEntries endpoints stats, e.2.1 < cache_servers.length)
    (hno : ∀ e ∈ focEntries endpoints stats,
      video_size ≤ remAt cache_servers e.2.1 →
      entryScore endpoints stats e ≠ -1) :
    (∃ r, find_optimal_cache video_size endpoints stats cache_servers = Except.ok r ∧
      FocSpec endpoints stats cache_servers video_size r) ∧
    (∀ (video_sizes : List Int) (sol : List Cache) (vid : Nat),
      find_optimal_cache (video_sizes.getD vid 0) endpoints stats sol = Except.ok none →
      enhanced_place_video endpoints video_sizes stats sol vid = Except.ok sol) := by
  constructor
  · have hmem : ∀ x ∈ stats.endpoints,
        ∀ q ∈ (endpoints.getD x dEndpoint).cacheLatencies,
        (x, q.1, q.2) ∈ focEntries endpoints stats := by
      intro x hx q hq
      exact List.mem_flatMap.mpr ⟨x, hx, List.mem_map.mpr ⟨q, hq, rfl⟩⟩
    have hinit : FocInv endpoints stats cache_servers video_size []
        ((-1 : ℚ), (none : Option Nat)) := by
      refine ⟨le_refl _, fun _ => ⟨rfl, by simp⟩, ?_⟩
      intro c hcon
      simp at hcon
    rcases focFold_outer endpoints stats cache_servers video_size
      stats.endpoints [] ((-1 : ℚ), (none : Option Nat)) hE
      (fun x hx q hq => hC _ (hmem x hx q hq))
      (fun x hx q hq => hno _ (hmem x hx q hq)) hinit with ⟨st2, hok, hinv⟩
    refine ⟨st2.2, ?_, ?_⟩
    · unfold find_optimal_cache
      rw [hok]
      rfl
    · rw [List.nil_append] at hinv
      rcases hres : st2.2 with _ | c
      · show ∀ e ∈ focEntries endpoints stats,
          video_size ≤ remAt cache_servers e.2.1 →
          entryScore endpoints stats e < -1
        exact (hinv.2.1 hres).2
      · show ∃ e ∈ focEntries endpoints stats, e.2.1 = c ∧
          video_size ≤ remAt cache_servers e.2.1 ∧
          (-1 : ℚ) < entryScore endpoints stats e ∧
          (∀ e2 ∈ focEntries endpoints stats,
            video_size ≤ remAt cache_servers e2.2.1 →
            entryScore endpoints stats e2 ≤ entryScore endpoints stats e) ∧
          (∀ e2 ∈ focEntries endpoints stats,
            video_size ≤ remAt cache_servers e2.2.1 →
            entryScore endpoints stats e2 = entryScore endpoints stats e →
            remAt cache_servers e2.2.1 ≤ remAt cache_servers c)
        rcases hinv.2.2 c hres with ⟨_, hgt, ⟨e, he, hec, hef, hescore⟩, hmax2, hcap2⟩
        refine ⟨e, he, hec, hef, ?_, ?_, ?_⟩
        · rw [hescore]
          exact hgt
        · intro e2 he2 hf
          rw [hescore]
          exact hmax2 e2 he2 hf
        · intro e2 he2 hf heq
          exact hcap2 e2 he2 hf (heq.trans hescore)
  · intro video_sizes sol vid h
    unfold enhanced_place_video
    rw [h]

/-- C7, witness: the amended statement at a concrete instance whose
single candidate scores 40. -/
theorem c7_find_optimal_cache_witness :
    ((∃ r, find_optimal_cache 1 [⟨10, [(0, 2)]⟩] ⟨5, [0], 0⟩ [⟨∅, 100⟩] = Except.ok r ∧
      FocSpec [⟨10, [(0, 2)]⟩] ⟨5, [0], 0⟩ [⟨∅, 100⟩] 1 r) ∧
    (∀ (video_sizes : List Int) (sol : List Cache) (vid : Nat),
      find_optimal_cache (video_sizes.getD vid 0) [⟨10, [(0, 2)]⟩] ⟨5, [0], 0⟩ sol
        = Except.ok none →
      enhanced_place_video [⟨10, [(0, 2)]⟩] video_sizes ⟨5, [0], 0⟩ sol vid
        = Except.ok sol)) :=
  c7_find_optimal_cache 1 [⟨10, [(0, 2)]⟩] ⟨5, [0], 0⟩ [⟨∅, 100⟩]
    (by decide) (by decide) (by decide)

end FocClaims

end VideoCache
